import Mathlib

/-
Verification of the LLMDog incremental file-tree state machine
(package model, package ui) against its natural-language specification.

The Go source is shallowly embedded: Go strings become lists of
characters, the mutable Model becomes a record threaded through pure
functions, and the gitignore regular expression and the file system
become explicit predicates and environments.  Recursions that walk the
ancestor chain of a path (which Go performs with unbounded loops) are
given an explicit fuel argument; at every call site the fuel is
instantiated with the length of the path, which dominates the number of
iterations because filepath.Dir strictly shortens every path of length
at least two.
-/

namespace LLMDog

/-- Go strings, modelled as lists of characters. -/
abbrev GoStr := List Char

/-- os.PathSeparator on the target platform. -/
def sep : Char := '/'

/-- strings.HasPrefix s pre. -/
def strHasPref (s pre : GoStr) : Bool := pre.isPrefixOf s

/-- strings.HasSuffix s suf. -/
def strHasSuf (s suf : GoStr) : Bool := suf.isSuffixOf s

/-- strings.ToLower, restricted to the ASCII range that the repository
manipulates. -/
def strToLower (s : GoStr) : GoStr := s.map Char.toLower

/-- strings.Contains s sub: substring containment. -/
def strContains (s sub : GoStr) : Bool :=
  (List.range (s.length + 1)).any fun i => sub.isPrefixOf (s.drop i)

/-- Bytewise lexicographic comparison of Go strings, as used by the
less-than operator on strings in sort.Slice callbacks. -/
def strLt : GoStr → GoStr → Bool
  | [], [] => false
  | [], _ :: _ => true
  | _ :: _, [] => false
  | a :: as, b :: bs => if a = b then strLt as bs else decide (a < b)

/-- filepath.Dir on clean paths: everything before the last separator;
a path with no separator yields the dot path, and cutting directly at
the leading separator yields the root path. -/
def dirOf (p : GoStr) : GoStr :=
  let r := p.reverse.dropWhile (fun c => c ≠ sep)
  if r = [] then ['.'] else if r.tail = [] then [sep] else r.tail.reverse

/-- One file-system node tracked by the tool (struct ui.FileItem). -/
structure FileItem where
  Path : GoStr
  Name : GoStr
  IsDir : Bool
  Selected : Bool
  Depth : Nat
  Expanded : Bool
  GitIgnored : Bool
  ChildrenLoaded : Bool
  MatchesContent : Bool
deriving DecidableEq, Repr

/-- The application state (struct model.Model), restricted to the fields
the tree state machine reads and writes.  The compiled gitignore regular
expression is abstracted into an optional predicate, the bubbletea list
into the list of items it currently shows; rendering state (spinner,
styles, cursor position, selection statistics) is display-only and not
modelled. -/
structure Model where
  items : List FileItem
  cwd : GoStr
  gitignoreRegexp : Option (GoStr → Bool)
  contentSearchMode : Bool
  listItems : List FileItem
  isLoading : Bool
  errors : List GoStr
  showErrors : Bool
  isInSearchResults : Bool

/-- Model.isGitIgnored: true when a regular expression is present and
matches the path. -/
def isGitIgnored (m : Model) (path : GoStr) : Bool :=
  match m.gitignoreRegexp with
  | some r => r path
  | none => false

/-- Update the first element of a list satisfying a predicate, leaving
the rest unchanged; this is the effect of the Go pattern that scans a
slice, mutates the first match and breaks. -/
def updateFirst (p : FileItem → Bool) (f : FileItem → FileItem) :
    List FileItem → List FileItem
  | [] => []
  | x :: xs => if p x then f x :: xs else x :: updateFirst p f xs

/-- Model.getAllDescendants: every item whose path extends the parent
path followed by a separator. -/
def getAllDescendants (m : Model) (parentPath : GoStr) : List FileItem :=
  m.items.filter fun it => strHasPref it.Path (parentPath ++ [sep])

/-- Model.areAllDescendantsSelected: false when there is no descendant;
otherwise every non-gitignored descendant must be selected, where the
selection bit is read back through a scan for the first item with the
same path, exactly as the inner loop of the source does. -/
def areAllDescendantsSelected (m : Model) (parentPath : GoStr) : Bool :=
  let descendants := getAllDescendants m parentPath
  if descendants.isEmpty then false
  else descendants.all fun desc =>
    if isGitIgnored m desc.Path then true
    else
      match m.items.find? (fun it => it.Path == desc.Path) with
      | some it => it.Selected
      | none => true

/-- Model.setSelectionStateForDescendants: write the selection bit into
every non-gitignored item below the parent path. -/
def setSelectionStateForDescendants (m : Model) (parentPath : GoStr)
    (selected : Bool) : Model :=
  { m with items := m.items.map fun it =>
      if strHasPref it.Path (parentPath ++ [sep]) && !(isGitIgnored m it.Path)
      then { it with Selected := selected } else it }

/-- Model.updateParentSelectionState: walk from the parent of the given
path toward the working directory, recomputing each ancestor directory
entry from areAllDescendantsSelected; the walk stops at the working
directory or at the first path with no directory entry in the store.
The fuel argument bounds the walk; the callers pass the length of the
starting path, which dominates the recursion depth. -/
def updateParentSelectionState (m : Model) (childPath : GoStr) :
    Nat → Model
  | 0 => m
  | fuel + 1 =>
    let parentPath := dirOf childPath
    if parentPath = m.cwd then m
    else
      match m.items.find? (fun it => it.Path == parentPath && it.IsDir) with
      | none => m
      | some _ =>
        let v := areAllDescendantsSelected m parentPath
        let items' := updateFirst (fun it => it.Path == parentPath && it.IsDir)
          (fun it => { it with Selected := v }) m.items
        updateParentSelectionState { m with items := items' } parentPath fuel

/-- Model.isVisible, inner ancestor loop: every ancestor strictly between
the item and the working directory must be present as an expanded
directory entry.  Fuel bounds the loop as in the source-level comment on
updateParentSelectionState. -/
def visLoop (m : Model) : GoStr → Nat → Bool
  | _, 0 => true
  | parentPath, fuel + 1 =>
    if parentPath = m.cwd ∨ parentPath = ['.'] then true
    else
      match m.items.find? (fun it => it.Path == parentPath && it.IsDir) with
      | none => false
      | some it =>
        if !it.Expanded then false
        else visLoop m (dirOf parentPath) fuel

/-- Model.isVisible: items at depth zero are always visible, all others
require every ancestor directory to be present and expanded. -/
def isVisible (m : Model) (item : FileItem) : Bool :=
  if item.Depth = 0 then true
  else visLoop m (dirOf item.Path) item.Path.length

/-- Model.refreshVisibleItems: re-assert the selection bit on visible
items whose path carried a selection (a no-op when paths are unique) and
publish the filtered item list to the list widget.  Cursor restoration
and selection statistics are display-only and not modelled. -/
def refreshVisibleItems (m : Model) : Model :=
  let selectedPaths := (m.items.filter (fun it => it.Selected)).map
    (fun it => it.Path)
  let items' := m.items.map fun it =>
    if isVisible m it && selectedPaths.contains it.Path
    then { it with Selected := true } else it
  { m with items := items', listItems := items'.filter (isVisible m) }

/-- Model.toggleSelection: ignored or unknown paths no-op; directories
cascade the new selection downward over non-ignored descendants; then
the ancestor chain is recomputed and the visible list refreshed.  The
optional force argument of the source is the optional boolean here. -/
def toggleSelection (m : Model) (path : GoStr)
    (forceSelect : Option Bool := none) : Model :=
  match m.items.find? (fun it => it.Path == path) with
  | none => m
  | some currentItem =>
    if isGitIgnored m currentItem.Path then m
    else
      let force := forceSelect.isSome
      let forceValue := forceSelect.getD false
      let setOwn := fun (v : Bool) =>
        updateFirst (fun it => it.Path == path)
          (fun it => { it with Selected := v }) m.items
      let m1 :=
        if currentItem.IsDir then
          if (currentItem.Selected && !force) || (force && !forceValue) then
            setSelectionStateForDescendants { m with items := setOwn false }
              path false
          else
            setSelectionStateForDescendants { m with items := setOwn true }
              path true
        else
          let newVal := if force then forceValue else !currentItem.Selected
          { m with items := setOwn newVal }
      let m2 := updateParentSelectionState m1 path path.length
      refreshVisibleItems m2

/-- Model.toggleExpansion: flip the expansion bit of a directory entry;
when the flip expands a directory whose children were never loaded, mark
the model loading and emit a load request for that path (the tea.Cmd of
the source, modelled as the optional requested path).  Files and unknown
paths no-op. -/
def toggleExpansion (m : Model) (path : GoStr) : Model × Option GoStr :=
  match m.items.find? (fun it => it.Path == path) with
  | none => (m, none)
  | some it =>
    if it.IsDir then
      let items' := updateFirst (fun i => i.Path == path)
        (fun i => { i with Expanded := !i.Expanded }) m.items
      let needLoad := (!it.Expanded) && !it.ChildrenLoaded
      let m' := { m with items := items', isLoading := needLoad || m.isLoading }
      (refreshVisibleItems m', if needLoad then some path else none)
    else (m, none)

/-- Model.Update, errMsg case: record the error, stop the loading
spinner, change nothing else. -/
def updateErrMsg (m : Model) (e : GoStr) : Model :=
  { m with errors := m.errors ++ [e], showErrors := true, isLoading := false }

/-- Model.Update, childrenLoadedMsg case: mark the parent as loaded,
de-duplicate the delivered children against every existing path, append
the survivors, refresh the visible list. -/
def updateChildrenLoaded (m : Model) (parentPath : GoStr)
    (children : List FileItem) : Model :=
  let items1 := updateFirst (fun it => it.Path == parentPath)
    (fun it => { it with ChildrenLoaded := true }) m.items
  let existingPaths := items1.map (fun it => it.Path)
  let newChildren := children.filter (fun c => !(existingPaths.contains c.Path))
  refreshVisibleItems { m with items := items1 ++ newChildren, isLoading := false }

/-- Model.selectAll: force-select every currently listed, non-ignored
item, one full toggleSelection per item as in the source loop. -/
def selectAll (m : Model) : Model :=
  m.listItems.foldl
    (fun acc it =>
      if isGitIgnored acc it.Path then acc
      else toggleSelection acc it.Path (some true)) m

/-- Model.deselectAll: clear the selection bit everywhere, then refresh
the visible list. -/
def deselectAll (m : Model) : Model :=
  refreshVisibleItems
    { m with items := m.items.map fun it => { it with Selected := false } }

/-- One entry of an os.ReadDir listing: a name and a directory flag (the
entry.Info data the loader consults). -/
structure DirEntry where
  name : GoStr
  isDir : Bool
deriving DecidableEq, Repr

/-- ui.isHiddenFile: the name starts with a dot. -/
def isHiddenFile (name : GoStr) : Bool := strHasPref name ['.']

/-- ui.LoadDirectoryChildren on a successful directory listing.  The
source computes the child depth from filepath.Rel(dirPath, dirPath),
which is always the dot path, so baseDepth is the length of splitting
the dot path at the separator.  filepath.Join of clean inputs is
concatenation with one separator. -/
def LoadDirectoryChildren (dirPath : GoStr) (gitRegex : Option (GoStr → Bool))
    (showHidden : Bool) (entries : List DirEntry) : List FileItem :=
  let rel : GoStr := ['.']
  let baseDepth := (rel.splitOn sep).length
  let baseDepth := if baseDepth = 0 then 1 else baseDepth
  entries.filterMap fun e =>
    if !showHidden && isHiddenFile e.name then none
    else
      let path := dirPath ++ sep :: e.name
      let ig := match gitRegex with | some r => r path | none => false
      some { Path := path, Name := e.name, IsDir := e.isDir,
             Selected := false, Depth := baseDepth, Expanded := false,
             GitIgnored := ig, ChildrenLoaded := false,
             MatchesContent := false }

/-- The file-system collaborator consulted by the search passes and the
synchronous lazy loads: stat sizes, raw file bytes, directory listings;
none models the corresponding I/O error. -/
structure FS where
  statSize : GoStr → Option Int
  readFile : GoStr → Option GoStr
  listDir : GoStr → Option (List DirEntry)

/-- The fixed content-search size ceiling of the source: files of at
least this many bytes are never read. -/
def searchCeiling : Int := 1024 * 1024

/-- Model.ensureParentPathsExpanded: walk the ancestor chain root-first,
expand each ancestor directory found in the store and synchronously
lazy-load the ones whose children were never loaded, de-duplicating the
loaded children against every existing path.  A failed listing leaves
the loaded flag unset.  Fuel as in updateParentSelectionState. -/
def ensureParentPathsExpanded (fs : FS) (showHidden : Bool) (m : Model)
    (path : GoStr) : Nat → Model
  | 0 => m
  | fuel + 1 =>
    let dir := dirOf path
    if dir = m.cwd ∨ dir = ['.'] then m
    else
      let m1 := ensureParentPathsExpanded fs showHidden m dir fuel
      match m1.items.find? (fun it => it.Path == dir && it.IsDir) with
      | none => m1
      | some it =>
        let items1 := updateFirst (fun i => i.Path == dir && i.IsDir)
          (fun i => { i with Expanded := true }) m1.items
        if !it.ChildrenLoaded then
          match fs.listDir dir with
          | none => { m1 with items := items1 }
          | some entries =>
            let children :=
              LoadDirectoryChildren dir m1.gitignoreRegexp showHidden entries
            let existingPaths := items1.map (fun i => i.Path)
            let items2 := items1 ++
              children.filter (fun c => !(existingPaths.contains c.Path))
            let items3 := updateFirst (fun i => i.Path == dir && i.IsDir)
              (fun i => { i with ChildrenLoaded := true }) items2
            { m1 with items := items3 }
        else { m1 with items := items1 }

/-- Accumulator of the first pass of Model.performSearch: the evolving
model, the result list and the set of matched paths. -/
structure SearchState where
  m : Model
  results : List FileItem
  foundPaths : List GoStr

/-- One iteration of the first pass of Model.performSearch at a given
index of the original item slice: filename containment first, then, in
content mode, the stat-bounded content probe; a match records the path,
force-expands the ancestors and appends the (possibly just flagged)
item. -/
def performSearchStep (fs : FS) (showHidden : Bool) (queryLower : GoStr)
    (st : SearchState) (i : Nat) : SearchState :=
  match st.m.items.get? i with
  | none => st
  | some it =>
    let matched1 := strContains (strToLower it.Name) queryLower
    let probe :=
      if !matched1 && st.m.contentSearchMode && !it.IsDir then
        match fs.statSize it.Path with
        | some size =>
          if size < searchCeiling then
            match fs.readFile it.Path with
            | some content =>
              if strContains (strToLower content) queryLower then
                (true, { st.m with
                  items := st.m.items.set i { it with MatchesContent := true } })
              else (false, st.m)
            | none => (false, st.m)
          else (false, st.m)
        | none => (false, st.m)
      else (matched1, st.m)
    if probe.1 then
      let m2 := ensureParentPathsExpanded fs showHidden probe.2 it.Path
        it.Path.length
      let resItem := (m2.items.get? i).getD it
      { m := m2, results := st.results ++ [resItem],
        foundPaths := st.foundPaths ++ [it.Path] }
    else { st with m := probe.2 }

/-- Model.performSearch: an empty query restores the plain visibility
projection; otherwise reset the content flags, run the two passes over
the whole store, sort by path and, when anything matched, publish the
results to the list widget (the no-match branches only post a status
message and keep the current view). -/
def performSearch (fs : FS) (showHidden : Bool) (m : Model)
    (query : GoStr) : Model :=
  if query = [] then refreshVisibleItems m
  else
    let m0 := { m with
      items := m.items.map fun it => { it with MatchesContent := false } }
    let queryLower := strToLower query
    let st := (List.range m0.items.length).foldl
      (performSearchStep fs showHidden queryLower)
      { m := m0, results := [], foundPaths := [] }
    let pass2 := st.m.items.foldl
      (fun (acc : List FileItem × List GoStr) it =>
        if acc.2.contains it.Path then acc
        else if it.IsDir && acc.2.any (fun p => strHasPref p (it.Path ++ [sep]))
        then (acc.1 ++ [it], acc.2 ++ [it.Path])
        else acc)
      (st.results, st.foundPaths)
    let sorted := pass2.1.mergeSort (fun a b => !strLt b.Path a.Path)
    if 0 < sorted.length then { st.m with listItems := sorted } else st.m

/-- model.addParentDirs: append to the results every ancestor directory
of the path that is strictly below the root and present in the item
list, root-first, de-duplicating through the result-path set.  Fuel as
in updateParentSelectionState. -/
def addParentDirs (path rootPath : GoStr) (results : List FileItem)
    (resultPaths : List GoStr) (allItems : List FileItem) :
    Nat → List FileItem × List GoStr
  | 0 => (results, resultPaths)
  | fuel + 1 =>
    let parentPath := dirOf path
    if parentPath = rootPath ∨ parentPath = ['.'] then (results, resultPaths)
    else
      let acc := addParentDirs parentPath rootPath results resultPaths
        allItems fuel
      if acc.2.contains parentPath then acc
      else
        match allItems.find? (fun it => it.Path == parentPath && it.IsDir) with
        | none => acc
        | some it => (acc.1 ++ [it], acc.2 ++ [parentPath])

/-- Accumulator of the fuzzy and content passes of
Model.executeCustomSearch. -/
structure CSearchAcc where
  results : List FileItem
  resultPaths : List GoStr
  matchCount : Nat

/-- One iteration of the fuzzy filename pass of executeCustomSearch:
non-directory entries whose lowercased name contains the query are
appended together with their ancestor directories. -/
def customFuzzyStep (queryLower cwd : GoStr) (allItems : List FileItem)
    (acc : CSearchAcc) (it : FileItem) : CSearchAcc :=
  if !it.IsDir && strContains (strToLower it.Name) queryLower then
    if acc.resultPaths.contains it.Path then acc
    else
      let withSelf := addParentDirs it.Path cwd (acc.results ++ [it])
        (acc.resultPaths ++ [it.Path]) allItems it.Path.length
      { results := withSelf.1, resultPaths := withSelf.2,
        matchCount := acc.matchCount + 1 }
  else acc

/-- One iteration of the content pass of executeCustomSearch: unmatched
small files whose lowercased bytes contain the query are appended as
flagged copies (the store itself is not flagged), with their ancestor
directories. -/
def customContentStep (fs : FS) (queryLower cwd : GoStr)
    (allItems : List FileItem) (acc : CSearchAcc) (it : FileItem) :
    CSearchAcc :=
  if !it.IsDir && !(acc.resultPaths.contains it.Path) then
    match fs.statSize it.Path with
    | some size =>
      if size < searchCeiling then
        match fs.readFile it.Path with
        | some content =>
          if strContains (strToLower content) queryLower then
            let flagged := { it with MatchesContent := true }
            let withSelf := addParentDirs it.Path cwd (acc.results ++ [flagged])
              (acc.resultPaths ++ [it.Path]) allItems it.Path.length
            { results := withSelf.1, resultPaths := withSelf.2,
              matchCount := acc.matchCount + 1 }
          else acc
        | none => acc
      else acc
    | none => acc
  else acc

/-- Model.executeCustomSearch: an empty query leaves search-results
mode; otherwise reset the content flags and look for non-directory
entries whose name equals the query case-insensitively.  When such exact
matches exist, the result set is exactly those plus their ancestor
directories, sorted by path, and no other pass runs; otherwise the fuzzy
filename pass and, if it found nothing and content mode is on, the
content pass produce the results.  An overall empty result restores the
plain projection. -/
def executeCustomSearch (fs : FS) (m : Model) (query : GoStr) : Model :=
  if query = [] then
    refreshVisibleItems { m with isInSearchResults := false }
  else
    let items0 := m.items.map fun it => { it with MatchesContent := false }
    let m0 := { m with isInSearchResults := true, items := items0 }
    let queryLower := strToLower query
    let exactMatches : List FileItem := m0.items.filter
      (fun it => !it.IsDir && strToLower it.Name == queryLower)
    if 0 < exactMatches.length then
      let acc := exactMatches.foldl
        (fun (acc : List FileItem × List GoStr) item =>
          if acc.2.contains item.Path then acc
          else addParentDirs item.Path m0.cwd (acc.1 ++ [item])
            (acc.2 ++ [item.Path]) m0.items item.Path.length)
        ([], [])
      { m0 with listItems := acc.1.mergeSort (fun a b => !strLt b.Path a.Path) }
    else
      let afterFuzzy := m0.items.foldl (customFuzzyStep queryLower m0.cwd m0.items)
        { results := [], resultPaths := [], matchCount := 0 }
      let afterContent :=
        if afterFuzzy.matchCount = 0 && m0.contentSearchMode then
          m0.items.foldl (customContentStep fs queryLower m0.cwd m0.items)
            afterFuzzy
        else afterFuzzy
      if 0 < afterContent.results.length then
        { m0 with listItems :=
            afterContent.results.mergeSort (fun a b => !strLt b.Path a.Path) }
      else
        refreshVisibleItems { m0 with isInSearchResults := false }

/-- Pure ancestor chain of a path: the iterated parent directories,
stopping at the working directory; this over-approximates the set of
paths any upward walk of the source can touch. -/
def dirChain (cwd : GoStr) : GoStr → Nat → List GoStr
  | _, 0 => []
  | p, fuel + 1 =>
    let q := dirOf p
    if q = cwd then [] else q :: dirChain cwd q fuel

/-- The list of ancestor paths whose directory entry
updateParentSelectionState actually recomputes: the walk mirrors the
function itself, stopping at the working directory or at the first path
with no directory entry. -/
def ancestorsUpdated (items : List FileItem) (cwd : GoStr) (childPath : GoStr) :
    Nat → List GoStr
  | 0 => []
  | fuel + 1 =>
    let parentPath := dirOf childPath
    if parentPath = cwd then []
    else if items.any (fun it => it.Path == parentPath && it.IsDir) then
      parentPath :: ancestorsUpdated items cwd parentPath fuel
    else []

theorem dirOf_ne_nil (p : GoStr) : dirOf p ≠ [] := by
  unfold dirOf
  dsimp only
  split
  · simp
  · split
    · simp
    · next h2 =>
      simpa using h2

theorem length_dirOf_le (p : GoStr) (hp : p ≠ []) :
    (dirOf p).length ≤ p.length := by
  have hlen : (p.reverse.dropWhile (fun c => c ≠ sep)).length ≤ p.length := by
    have := (List.dropWhile_sublist (l := p.reverse) (fun c => c ≠ sep)).length_le
    simpa using this
  have hpos : 1 ≤ p.length := List.length_pos.mpr hp
  unfold dirOf
  dsimp only
  split
  · simpa using hpos
  · split
    · simpa using hpos
    · next h1 h2 =>
      simp only [List.length_reverse, List.length_tail]
      omega

theorem length_dirOf_lt (p : GoStr) (hp : 2 ≤ p.length) :
    (dirOf p).length < p.length := by
  have hlen : (p.reverse.dropWhile (fun c => c ≠ sep)).length ≤ p.length := by
    have := (List.dropWhile_sublist (l := p.reverse) (fun c => c ≠ sep)).length_le
    simpa using this
  unfold dirOf
  dsimp only
  split
  · simpa using hp
  · split
    · simpa using hp
    · next h1 h2 =>
      have h1' : 1 ≤ (p.reverse.dropWhile (fun c => c ≠ sep)).length :=
        List.length_pos.mpr h1
      simp only [List.length_reverse, List.length_tail]
      omega

theorem mem_dirChain_length {cwd q : GoStr} :
    ∀ {p : GoStr} {fuel : Nat}, q ∈ dirChain cwd p fuel →
      q.length ≤ (dirOf p).length := by
  intro p fuel
  induction fuel generalizing p with
  | zero => intro h; simp [dirChain] at h
  | succ n ih =>
    intro h
    simp only [dirChain] at h
    split at h
    · simp at h
    · rcases List.mem_cons.mp h with h1 | h2
      · exact h1 ▸ le_refl _
      · exact le_trans (ih h2) (length_dirOf_le _ (dirOf_ne_nil p))

/-- Pointwise relation between an item list and its evolution through
the selection engine: every field except the selection bit is preserved,
and the selection bit may change only on paths satisfying P. -/
def SelOnly (P : FileItem → Prop) (a b : FileItem) : Prop :=
  b.Path = a.Path ∧ b.Name = a.Name ∧ b.IsDir = a.IsDir ∧
  b.Depth = a.Depth ∧ b.Expanded = a.Expanded ∧
  b.GitIgnored = a.GitIgnored ∧ b.ChildrenLoaded = a.ChildrenLoaded ∧
  b.MatchesContent = a.MatchesContent ∧ (b.Selected = a.Selected ∨ P a)

theorem selOnly_refl (P : FileItem → Prop) (a : FileItem) : SelOnly P a a :=
  ⟨rfl, rfl, rfl, rfl, rfl, rfl, rfl, rfl, Or.inl rfl⟩

theorem selOnly_mono {P Q : FileItem → Prop} (h : ∀ x, P x → Q x)
    {a b : FileItem} : SelOnly P a b → SelOnly Q a b := by
  rintro ⟨h1, h2, h3, h4, h5, h6, h7, h8, h9 | h9⟩
  · exact ⟨h1, h2, h3, h4, h5, h6, h7, h8, Or.inl h9⟩
  · exact ⟨h1, h2, h3, h4, h5, h6, h7, h8, Or.inr (h _ h9)⟩

theorem selOnly_trans {P Q : FileItem → Prop} {a b c : FileItem}
    (hback : ∀ x y, SelOnly P x y → Q y → Q x)
    (hab : SelOnly P a b) (hbc : SelOnly Q b c) :
    SelOnly (fun x => P x ∨ Q x) a c := by
  have hab' := hab
  obtain ⟨h1, h2, h3, h4, h5, h6, h7, h8, h9⟩ := hab
  obtain ⟨g1, g2, g3, g4, g5, g6, g7, g8, g9⟩ := hbc
  refine ⟨g1.trans h1, g2.trans h2, g3.trans h3, g4.trans h4, g5.trans h5,
    g6.trans h6, g7.trans h7, g8.trans h8, ?_⟩
  rcases h9 with h9 | h9
  · rcases g9 with g9 | g9
    · exact Or.inl (g9.trans h9)
    · exact Or.inr (Or.inr (hback a b hab' g9))
  · exact Or.inr (Or.inl h9)

theorem selOnly_eq {P : FileItem → Prop} {a b : FileItem}
    (h : SelOnly P a b) (hnp : ¬ P a) : b = a := by
  obtain ⟨h1, h2, h3, h4, h5, h6, h7, h8, h9 | h9⟩ := h
  · cases a; cases b; simp_all
  · exact absurd h9 hnp

theorem forall₂_selOnly_refl (P : FileItem → Prop) (l : List FileItem) :
    List.Forall₂ (SelOnly P) l l :=
  List.forall₂_same.mpr fun a _ => selOnly_refl P a

theorem forall₂_selOnly_mono {P Q : FileItem → Prop} (h : ∀ x, P x → Q x)
    {l l' : List FileItem} (hl : List.Forall₂ (SelOnly P) l l') :
    List.Forall₂ (SelOnly Q) l l' :=
  hl.imp fun _ _ hab => selOnly_mono h hab

theorem forall₂_selOnly_trans {P Q : FileItem → Prop}
    (hback : ∀ x y, SelOnly P x y → Q y → Q x) :
    ∀ {l₁ l₂ l₃ : List FileItem}, List.Forall₂ (SelOnly P) l₁ l₂ →
      List.Forall₂ (SelOnly Q) l₂ l₃ →
      List.Forall₂ (SelOnly (fun x => P x ∨ Q x)) l₁ l₃ := by
  intro l₁ l₂ l₃ h12 h23
  induction h12 generalizing l₃ with
  | nil => cases h23; exact List.Forall₂.nil
  | cons hab htl ih =>
    cases h23 with
    | cons hbc htl' =>
      exact List.Forall₂.cons (selOnly_trans hback hab hbc) (ih htl')

theorem forall₂_selOnly_path_map {P : FileItem → Prop} :
    ∀ {l l' : List FileItem}, List.Forall₂ (SelOnly P) l l' →
      l'.map FileItem.Path = l.map FileItem.Path := by
  intro l l' h
  induction h with
  | nil => rfl
  | cons hab _ ih => simp [ih, hab.1]

theorem forall₂_mem_right {R : FileItem → FileItem → Prop} :
    ∀ {l l' : List FileItem}, List.Forall₂ R l l' →
      ∀ b ∈ l', ∃ a ∈ l, R a b := by
  intro l l' h
  induction h with
  | nil => intro b hb; simp at hb
  | cons hab _ ih =>
    intro b hb
    rcases List.mem_cons.mp hb with rfl | hb
    · exact ⟨_, List.mem_cons_self _ _, hab⟩
    · obtain ⟨a, ha, har⟩ := ih b hb
      exact ⟨a, List.mem_cons_of_mem _ ha, har⟩

theorem find?_transport {R : FileItem → FileItem → Prop}
    (pred : FileItem → Bool) (hpred : ∀ a b, R a b → pred b = pred a) :
    ∀ {l l' : List FileItem}, List.Forall₂ R l l' →
      (l.find? pred = none ∧ l'.find? pred = none) ∨
      (∃ a b, R a b ∧ l.find? pred = some a ∧ l'.find? pred = some b) := by
  intro l l' h
  induction h with
  | nil => exact Or.inl ⟨rfl, rfl⟩
  | @cons a b la lb hab _ ih =>
    by_cases hp : pred a = true
    · exact Or.inr ⟨a, b, hab, by simp [List.find?_cons_of_pos _ hp],
        by simp [List.find?_cons_of_pos _ ((hpred a b hab).trans hp)]⟩
    · have hpb : ¬ pred b = true := by rw [hpred a b hab]; exact hp
      rcases ih with ⟨h1, h2⟩ | ⟨x, y, hr, hx, hy⟩
      · exact Or.inl ⟨by simp [List.find?_cons_of_neg _ hp, h1],
          by simp [List.find?_cons_of_neg _ hpb, h2]⟩
      · exact Or.inr ⟨x, y, hr, by simp [List.find?_cons_of_neg _ hp, hx],
          by simp [List.find?_cons_of_neg _ hpb, hy]⟩

theorem any_transport {R : FileItem → FileItem → Prop}
    (pred : FileItem → Bool) (hpred : ∀ a b, R a b → pred b = pred a) :
    ∀ {l l' : List FileItem}, List.Forall₂ R l l' →
      l'.any pred = l.any pred := by
  intro l l' h
  induction h with
  | nil => rfl
  | cons hab _ ih => simp [List.any_cons, ih, hpred _ _ hab]

theorem filter_transport {R : FileItem → FileItem → Prop}
    (pred : FileItem → Bool) (hpred : ∀ a b, R a b → pred b = pred a)
    (heq : ∀ a b, R a b → pred a = true → b = a) :
    ∀ {l l' : List FileItem}, List.Forall₂ R l l' →
      l'.filter pred = l.filter pred := by
  intro l l' h
  induction h with
  | nil => rfl
  | @cons a b la lb hab _ ih =>
    by_cases hp : pred a = true
    · rw [List.filter_cons_of_pos hp,
        List.filter_cons_of_pos (by rw [hpred a b hab]; exact hp), ih,
        heq a b hab hp]
    · rw [List.filter_cons_of_neg hp,
        List.filter_cons_of_neg (by rw [hpred a b hab]; exact hp), ih]

theorem updateFirst_selOnly (pred : FileItem → Bool) (v : Bool) :
    ∀ l : List FileItem, List.Forall₂ (SelOnly (fun x => pred x = true)) l
      (updateFirst pred (fun it => { it with Selected := v }) l) := by
  intro l
  induction l with
  | nil => exact List.Forall₂.nil
  | cons x xs ih =>
    by_cases hx : pred x = true
    · simp only [updateFirst, if_pos hx]
      exact List.Forall₂.cons
        ⟨rfl, rfl, rfl, rfl, rfl, rfl, rfl, rfl, Or.inr hx⟩
        (forall₂_selOnly_refl _ xs)
    · simp only [updateFirst, if_neg hx]
      exact List.Forall₂.cons (selOnly_refl _ x) ih

theorem updateFirst_decomp (pred : FileItem → Bool) (f : FileItem → FileItem) :
    ∀ {l : List FileItem} {a₀ : FileItem}, l.find? pred = some a₀ →
      ∃ l₁ l₂, l = l₁ ++ a₀ :: l₂ ∧ (∀ y ∈ l₁, pred y = false) ∧
        updateFirst pred f l = l₁ ++ f a₀ :: l₂ := by
  intro l
  induction l with
  | nil => intro a₀ h; simp at h
  | cons x xs ih =>
    intro a₀ h
    by_cases hx : pred x = true
    · rw [List.find?_cons_of_pos _ hx] at h
      cases h
      exact ⟨[], xs, rfl, by simp, by simp [updateFirst, hx]⟩
    · rw [List.find?_cons_of_neg _ hx] at h
      obtain ⟨l₁, l₂, he, hl₁, hu⟩ := ih h
      exact ⟨x :: l₁, l₂, by simp [he],
        by intro y hy; rcases List.mem_cons.mp hy with rfl | hy
           · simpa using hx
           · exact hl₁ y hy,
        by simp [updateFirst, hx, hu]⟩

theorem find?_path_self {l : List FileItem}
    (hnd : (l.map FileItem.Path).Nodup) {d : FileItem} (hd : d ∈ l) :
    l.find? (fun it => it.Path == d.Path) = some d := by
  induction l with
  | nil => simp at hd
  | cons x xs ih =>
    rcases List.mem_cons.mp hd with rfl | hd
    · exact List.find?_cons_of_pos _ (by simp)
    · have hx : ¬ (x.Path == d.Path) = true := by
        simp only [beq_iff_eq]
        intro he
        have : d.Path ∈ xs.map FileItem.Path := List.mem_map_of_mem _ hd
        rw [← he] at this
        exact (List.nodup_cons.mp hnd).1 this
      have hx' : (x.Path == d.Path) = false := by simpa using hx
      simp only [List.find?_cons, hx']
      exact ih (List.nodup_cons.mp hnd).2 hd

theorem selected_update_self {it : FileItem} (h : it.Selected = true) :
    { it with Selected := true } = it := by
  cases it; simp_all

/-- With unique paths the selection re-assertion inside
refreshVisibleItems is the identity on the item list. -/
theorem refresh_items_eq (m : Model)
    (hnd : (m.items.map FileItem.Path).Nodup) :
    (refreshVisibleItems m).items = m.items := by
  show m.items.map _ = m.items
  conv_rhs => rw [← List.map_id m.items]
  apply List.map_congr_left
  intro it hit
  by_cases hc : ((m.items.filter (fun i => i.Selected)).map
      (fun i => i.Path)).contains it.Path = true
  · have hsel : it.Selected = true := by
      obtain ⟨q, hq, hqe⟩ := List.contains_iff_exists_mem_beq.mp hc
      obtain ⟨u, hu, hue⟩ := List.mem_map.mp hq
      have hupath : u.Path = it.Path := by
        have hqq : it.Path = q := by simpa using hqe
        rw [hqq, ← hue]
      have humem : u ∈ m.items := (List.mem_filter.mp hu).1
      have husel : u.Selected = true := by
        simpa using (List.mem_filter.mp hu).2
      have : u = it :=
        List.inj_on_of_nodup_map hnd humem hit hupath
      rw [← this]; exact husel
    simp only [hc, Bool.and_true]
    split
    · exact selected_update_self hsel
    · rfl
  · simp only [Bool.not_eq_true] at hc
    simp only [hc, Bool.and_false, id]
    simp

theorem refresh_listItems_eq (m : Model)
    (hnd : (m.items.map FileItem.Path).Nodup) :
    (refreshVisibleItems m).listItems = m.items.filter (isVisible m) := by
  have h := refresh_items_eq m hnd
  show (m.items.map _).filter _ = _
  have : m.items.map (fun it =>
      if isVisible m it && ((m.items.filter (fun i => i.Selected)).map
        (fun i => i.Path)).contains it.Path
      then { it with Selected := true } else it) = m.items := h
  rw [this]

/-- The executable all-descendants check agrees with its specification
reading when paths are unique: there is at least one descendant and
every non-ignored descendant is selected. -/
theorem areAll_spec (m : Model) (q : GoStr)
    (hnd : (m.items.map FileItem.Path).Nodup) :
    areAllDescendantsSelected m q = true ↔
      ((∃ d ∈ m.items, strHasPref d.Path (q ++ [sep]) = true) ∧
       (∀ d ∈ m.items, strHasPref d.Path (q ++ [sep]) = true →
          isGitIgnored m d.Path = false → d.Selected = true)) := by
  unfold areAllDescendantsSelected getAllDescendants
  dsimp only
  by_cases he : (m.items.filter
      (fun it => strHasPref it.Path (q ++ [sep]))).isEmpty = true
  · rw [if_pos he]
    have hnil : m.items.filter (fun it => strHasPref it.Path (q ++ [sep])) = [] :=
      List.isEmpty_iff.mp he
    constructor
    · intro h; exact absurd h (by simp)
    · rintro ⟨⟨d, hd, hpref⟩, -⟩
      have : d ∈ m.items.filter (fun it => strHasPref it.Path (q ++ [sep])) :=
        List.mem_filter.mpr ⟨hd, hpref⟩
      rw [hnil] at this
      simp at this
  · rw [if_neg he]
    constructor
    · intro hall
      constructor
      · have hne : m.items.filter (fun it => strHasPref it.Path (q ++ [sep])) ≠ [] := by
          intro h0
          exact he (by rw [h0]; rfl)
        obtain ⟨d, hd⟩ := List.exists_mem_of_ne_nil _ hne
        exact ⟨d, (List.mem_filter.mp hd).1, (List.mem_filter.mp hd).2⟩
      · intro d hd hpref hig
        have hdf : d ∈ m.items.filter (fun it => strHasPref it.Path (q ++ [sep])) :=
          List.mem_filter.mpr ⟨hd, hpref⟩
        have hstep := List.all_eq_true.mp hall d hdf
        rw [hig] at hstep
        simp only [Bool.false_eq_true, if_false] at hstep
        rw [find?_path_self hnd hd] at hstep
        simpa using hstep
    · rintro ⟨-, hall⟩
      rw [List.all_eq_true]
      intro x hx
      have hxm := (List.mem_filter.mp hx).1
      have hxp := (List.mem_filter.mp hx).2
      by_cases hig : isGitIgnored m x.Path = true
      · simp [hig]
      · have hig' : isGitIgnored m x.Path = false := by
          simpa using hig
        rw [hig']
        simp only [Bool.false_eq_true, if_false]
        rw [find?_path_self hnd hxm]
        simpa using hall x hxm hxp hig'

theorem strHasPref_length {s pre : GoStr} (h : strHasPref s pre = true) :
    pre.length ≤ s.length := by
  unfold strHasPref at h
  exact (List.isPrefixOf_iff_prefix.mp h).length_le

theorem all_congr_mem {l : List FileItem} {f g : FileItem → Bool}
    (h : ∀ x ∈ l, f x = g x) : l.all f = l.all g := by
  induction l with
  | nil => rfl
  | cons x xs ih =>
    simp only [List.all_cons, h x (List.mem_cons_self x xs)]
    rw [ih fun y hy => h y (List.mem_cons_of_mem x hy)]

/-- The all-descendants check at a path does not change when the item
list evolves through selection edits confined to paths no longer than
that path: every descendant and every lookup target is strictly longer
and therefore untouched. -/
theorem areAll_congr {P : FileItem → Prop} (m : Model) (l' : List FileItem)
    (hrel : List.Forall₂ (SelOnly P) m.items l') (q : GoStr)
    (hP : ∀ x : FileItem, P x → x.Path.length ≤ q.length) :
    areAllDescendantsSelected { m with items := l' } q =
      areAllDescendantsSelected m q := by
  have hlong : ∀ a : FileItem, strHasPref a.Path (q ++ [sep]) = true →
      ¬ P a := by
    intro a ha hPa
    have h1 : (q ++ [sep]).length ≤ a.Path.length := strHasPref_length ha
    have h2 : a.Path.length ≤ q.length := hP _ hPa
    simp only [List.length_append, List.length_cons, List.length_nil] at h1
    omega
  have hfil : l'.filter (fun it => strHasPref it.Path (q ++ [sep])) =
      m.items.filter (fun it => strHasPref it.Path (q ++ [sep])) := by
    refine filter_transport _ (fun a b hab => ?_) ?_ hrel
    · show strHasPref b.Path (q ++ [sep]) = strHasPref a.Path (q ++ [sep])
      rw [hab.1]
    intro a b hab hpa
    exact selOnly_eq hab (hlong a hpa)
  unfold areAllDescendantsSelected getAllDescendants
  dsimp only
  rw [hfil]
  by_cases he : (m.items.filter
      (fun it => strHasPref it.Path (q ++ [sep]))).isEmpty = true
  · rw [if_pos he, if_pos he]
  · rw [if_neg he, if_neg he]
    apply all_congr_mem
    intro x hx
    have hxp : strHasPref x.Path (q ++ [sep]) = true :=
      (List.mem_filter.mp hx).2
    by_cases hig : isGitIgnored m x.Path = true
    · simp only [show isGitIgnored { m with items := l' } x.Path =
        isGitIgnored m x.Path from rfl, hig, if_pos]
    · have hig2 : isGitIgnored { m with items := l' } x.Path = isGitIgnored m x.Path := rfl
      rw [hig2, if_neg hig, if_neg hig]
      rcases find?_transport (fun it => it.Path == x.Path)
          (fun a b hab => by show (b.Path == x.Path) = (a.Path == x.Path)
                             rw [hab.1]) hrel with ⟨h1, h2⟩ | ⟨a, b, hab, h1, h2⟩
      · rw [h1, h2]
      · rw [h1, h2]
        have hax : a.Path = x.Path := by
          have := List.find?_some h1
          simpa using this
        have : b.Selected = a.Selected := by
          rcases hab.2.2.2.2.2.2.2.2 with h | h
          · exact h
          · exact absurd h (hlong a (by rw [hax]; exact hxp))
        simpa using this

/-- updateParentSelectionState only rewrites the item list. -/
theorem updateParent_eq_items : ∀ (fuel : Nat) (m : Model) (c : GoStr),
    updateParentSelectionState m c fuel =
      { m with items := (updateParentSelectionState m c fuel).items } := by
  intro fuel
  induction fuel with
  | zero => intro m c; rfl
  | succ n ih =>
    intro m c
    unfold updateParentSelectionState
    dsimp only
    by_cases hp : dirOf c = m.cwd
    · rw [if_pos hp]
    · rw [if_neg hp]
      cases hf : m.items.find? (fun it => it.Path == dirOf c && it.IsDir) with
      | none => rfl
      | some a => exact ih _ _

/-- The paths recomputed by the walk depend only on the path and
directory-flag skeleton of the item list, which selection edits never
change. -/
theorem ancestorsUpdated_congr {P : FileItem → Prop} :
    ∀ (fuel : Nat) (c cwd : GoStr) {l l' : List FileItem},
      List.Forall₂ (SelOnly P) l l' →
      ancestorsUpdated l' cwd c fuel = ancestorsUpdated l cwd c fuel := by
  intro fuel
  induction fuel with
  | zero => intro c cwd l l' h; rfl
  | succ n ih =>
    intro c cwd l l' h
    unfold ancestorsUpdated
    dsimp only
    rw [any_transport (fun it => it.Path == dirOf c && it.IsDir)
      (fun a b hab => by
        show (b.Path == dirOf c && b.IsDir) = (a.Path == dirOf c && a.IsDir)
        rw [hab.1, hab.2.2.1]) h,
      ih (dirOf c) cwd h]

/-- Frame of the upward walk: it can change only selection bits, and
only at paths on the ancestor chain of the starting path. -/
theorem updateParent_frame : ∀ (fuel : Nat) (m : Model) (c : GoStr),
    List.Forall₂ (SelOnly (fun x => x.Path ∈ dirChain m.cwd c fuel ∧
      x.IsDir = true)) m.items
      (updateParentSelectionState m c fuel).items := by
  intro fuel
  induction fuel with
  | zero => intro m c; exact forall₂_selOnly_refl _ _
  | succ n ih =>
    intro m c
    unfold updateParentSelectionState
    dsimp only
    by_cases hp : dirOf c = m.cwd
    · rw [if_pos hp]; exact forall₂_selOnly_refl _ _
    · rw [if_neg hp]
      cases hf : m.items.find? (fun it => it.Path == dirOf c && it.IsDir) with
      | none => exact forall₂_selOnly_refl _ _
      | some a =>
        have h1 := updateFirst_selOnly
          (fun it => it.Path == dirOf c && it.IsDir)
          (areAllDescendantsSelected m (dirOf c)) m.items
        set l1 := updateFirst (fun it => it.Path == dirOf c && it.IsDir)
          (fun it => { it with Selected :=
            areAllDescendantsSelected m (dirOf c) }) m.items with hl1
        have h2 := ih { m with items := l1 } (dirOf c)
        have h3 := forall₂_selOnly_trans
          (fun x y hxy hQ => ⟨hxy.1 ▸ hQ.1, hxy.2.2.1 ▸ hQ.2⟩) h1 h2
        refine forall₂_selOnly_mono ?_ h3
        intro x hx
        have hchain : dirChain m.cwd c (n + 1) =
            dirOf c :: dirChain m.cwd (dirOf c) n := by
          conv_lhs => rw [dirChain]
          rw [if_neg hp]
        rw [hchain]
        rcases hx with hx | hx
        · have hx' : (x.Path == dirOf c) = true ∧ x.IsDir = true := by
            simpa using hx
          have hxp : x.Path = dirOf c := by simpa using hx'.1
          exact ⟨hxp ▸ List.mem_cons_self _ _, hx'.2⟩
        · exact ⟨List.mem_cons_of_mem _ hx.1, hx.2⟩

/-- Postcondition of the upward walk: in a store with unique paths all
lying strictly below the working directory, every directory entry whose
path the walk recomputes ends with a selection bit equal to the
all-descendants check evaluated over the final state. -/
theorem updateParent_post : ∀ (fuel : Nat) (m : Model) (c : GoStr),
    (m.items.map FileItem.Path).Nodup →
    (∀ it ∈ m.items, m.cwd.length + 1 < it.Path.length) →
    ∀ it' ∈ (updateParentSelectionState m c fuel).items,
      it'.Path ∈ ancestorsUpdated m.items m.cwd c fuel →
      it'.Selected = areAllDescendantsSelected
        (updateParentSelectionState m c fuel) it'.Path := by
  intro fuel
  induction fuel with
  | zero =>
    intro m c _ _ it' _ hmem
    simp [ancestorsUpdated] at hmem
  | succ n ih =>
    intro m c hnd hwf it' hit' hmem
    by_cases hp : dirOf c = m.cwd
    · have ha : ancestorsUpdated m.items m.cwd c (n + 1) = [] := by
        conv_lhs => rw [ancestorsUpdated]
        rw [if_pos hp]
      rw [ha] at hmem
      simp at hmem
    · cases hf : m.items.find? (fun it => it.Path == dirOf c && it.IsDir) with
      | none =>
        have hany : m.items.any (fun it => it.Path == dirOf c && it.IsDir)
            = false := by
          rw [List.any_eq_false]
          intro x hx
          have := List.find?_eq_none.mp hf x hx
          simpa using this
        have ha : ancestorsUpdated m.items m.cwd c (n + 1) = [] := by
          conv_lhs => rw [ancestorsUpdated]
          simp only [if_neg hp, hany]
          simp
        rw [ha] at hmem
        simp at hmem
      | some a =>
        have hpa0 : (a.Path == dirOf c && a.IsDir) = true := by
          have h := List.find?_some
            (p := fun (it : FileItem) => it.Path == dirOf c && it.IsDir) hf
          simpa using h
        have hany : m.items.any (fun it => it.Path == dirOf c && it.IsDir)
            = true := by
          rw [List.any_eq_true]
          exact ⟨a, List.mem_of_find?_eq_some hf, by simpa using hpa0⟩
        set v := areAllDescendantsSelected m (dirOf c) with hv
        set l1 := updateFirst (fun it => it.Path == dirOf c && it.IsDir)
          (fun it => { it with Selected := v }) m.items with hl1
        have hupdate : updateParentSelectionState m c (n + 1) =
            updateParentSelectionState { m with items := l1 } (dirOf c) n := by
          conv_lhs => rw [updateParentSelectionState]
          simp only [if_neg hp, hf]
        have hanc : ancestorsUpdated m.items m.cwd c (n + 1) =
            dirOf c :: ancestorsUpdated m.items m.cwd (dirOf c) n := by
          conv_lhs => rw [ancestorsUpdated]
          simp only [if_neg hp, hany]
          simp
        have h1 : List.Forall₂ (SelOnly (fun x =>
            (x.Path == dirOf c && x.IsDir) = true)) m.items l1 :=
          updateFirst_selOnly _ v m.items
        have hpathmap : l1.map FileItem.Path = m.items.map FileItem.Path :=
          forall₂_selOnly_path_map h1
        have hnd1 : (l1.map FileItem.Path).Nodup := by
          rw [hpathmap]; exact hnd
        have hwf1 : ∀ it ∈ l1, m.cwd.length + 1 < it.Path.length := by
          intro b hb
          obtain ⟨x, hx, hxr⟩ := forall₂_mem_right h1 b hb
          rw [hxr.1]
          exact hwf x hx
        rw [hupdate] at hit' ⊢
        rw [hanc] at hmem
        rcases List.mem_cons.mp hmem with hhead | htail
        · have hmema : a ∈ m.items := List.mem_of_find?_eq_some hf
          have hpa : a.Path = dirOf c := by
            have hsome' : (a.Path == dirOf c) = true ∧ a.IsDir = true := by
              simpa using hpa0
            simpa using hsome'.1
          have hlen2 : 2 ≤ (dirOf c).length := by
            have := hwf a hmema
            rw [hpa] at this
            omega
          have hchainlt : ∀ s ∈ dirChain m.cwd (dirOf c) n,
              s.length < (dirOf c).length := fun s hs =>
            lt_of_le_of_lt (mem_dirChain_length hs) (length_dirOf_lt _ hlen2)
          have hframe : List.Forall₂
              (SelOnly (fun x => x.Path ∈ dirChain m.cwd (dirOf c) n ∧
                x.IsDir = true)) l1
              (updateParentSelectionState { m with items := l1 }
                (dirOf c) n).items :=
            updateParent_frame n { m with items := l1 } (dirOf c)
          obtain ⟨b, hb, hbr⟩ := forall₂_mem_right hframe it' hit'
          have hbpath : it'.Path = b.Path := hbr.1
          have hnotP : ¬ (b.Path ∈ dirChain m.cwd (dirOf c) n ∧
              b.IsDir = true) := by
            intro hmem2
            have hlt := hchainlt _ hmem2.1
            rw [← hbpath, hhead] at hlt
            omega
          have hit'b : it' = b := selOnly_eq hbr hnotP
          obtain ⟨la, lb, hdecomp, hlafalse, hupd⟩ :=
            updateFirst_decomp (fun it => it.Path == dirOf c && it.IsDir)
              (fun it => { it with Selected := v }) hf
          have hndsplit : a.Path ∉ la.map FileItem.Path ∧
              a.Path ∉ lb.map FileItem.Path := by
            rw [hdecomp] at hnd
            simp only [List.map_append, List.map_cons] at hnd
            have h2 := List.nodup_append.mp hnd
            constructor
            · intro hmem3
              exact h2.2.2 hmem3 (List.mem_cons_self _ _)
            · exact fun hmem3 => (List.nodup_cons.mp h2.2.1).1 hmem3
          have hb1 : b ∈ la ++ ({ a with Selected := v }) :: lb := by
            rw [← hupd, ← hl1]
            exact hb
          have hbsel : b.Selected = v := by
            rcases List.mem_append.mp hb1 with hbla | hbmid
            · exfalso
              have : b.Path ∈ la.map FileItem.Path :=
                List.mem_map_of_mem _ hbla
              rw [← hbpath, hhead, ← hpa] at this
              exact hndsplit.1 this
            · rcases List.mem_cons.mp hbmid with hbeq | hblb
              · rw [hbeq]
              · exfalso
                have : b.Path ∈ lb.map FileItem.Path :=
                  List.mem_map_of_mem _ hblb
                rw [← hbpath, hhead, ← hpa] at this
                exact hndsplit.2 this
          have hfinal_eq : updateParentSelectionState { m with items := l1 }
              (dirOf c) n = { m with items := (updateParentSelectionState
                { m with items := l1 } (dirOf c) n).items } :=
            updateParent_eq_items n { m with items := l1 } (dirOf c)
          have hstep1 : areAllDescendantsSelected
              { m with items := (updateParentSelectionState
                { m with items := l1 } (dirOf c) n).items } (dirOf c) =
              areAllDescendantsSelected { m with items := l1 } (dirOf c) :=
            areAll_congr { m with items := l1 }
              (updateParentSelectionState { m with items := l1 }
                (dirOf c) n).items hframe (dirOf c)
              (fun x hx => le_of_lt (hchainlt _ hx.1))
          have hstep2 : areAllDescendantsSelected { m with items := l1 }
              (dirOf c) = areAllDescendantsSelected m (dirOf c) :=
            areAll_congr m l1 h1 (dirOf c)
              (fun x hx => by
                have hx' : (x.Path == dirOf c) = true ∧ x.IsDir = true := by
                  simpa using hx
                have hxp : x.Path = dirOf c := by simpa using hx'.1
                rw [hxp])
          rw [hhead, hfinal_eq, hstep1, hstep2, ← hv, hit'b]
          exact hbsel
        · have hancongr : ancestorsUpdated l1 m.cwd (dirOf c) n =
              ancestorsUpdated m.items m.cwd (dirOf c) n :=
            ancestorsUpdated_congr n (dirOf c) m.cwd h1
          have htail1 : it'.Path ∈ ancestorsUpdated l1 m.cwd (dirOf c) n := by
            rw [hancongr]; exact htail
          exact ih { m with items := l1 } (dirOf c) hnd1 hwf1 it' hit' htail1

theorem forall₂_selOnly_map {P : FileItem → Prop} (f : FileItem → FileItem)
    (hf : ∀ it, SelOnly P it (f it)) :
    ∀ l : List FileItem, List.Forall₂ (SelOnly P) l (l.map f) := by
  intro l
  induction l with
  | nil => exact List.Forall₂.nil
  | cons x xs ih => exact List.Forall₂.cons (hf x) ih

theorem cascade_rel (mm : Model) (path : GoStr) (v : Bool) :
    List.Forall₂ (SelOnly (fun x => (strHasPref x.Path (path ++ [sep]) &&
      !(isGitIgnored mm x.Path)) = true))
      mm.items (setSelectionStateForDescendants mm path v).items := by
  apply forall₂_selOnly_map
  intro it
  by_cases hc : (strHasPref it.Path (path ++ [sep]) &&
      !(isGitIgnored mm it.Path)) = true
  · simp only [hc, if_pos]
    exact ⟨rfl, rfl, rfl, rfl, rfl, rfl, rfl, rfl, Or.inr hc⟩
  · simp only [Bool.not_eq_true] at hc
    simp only [hc]
    exact selOnly_refl _ _

theorem setOwn_rel (m : Model) (path : GoStr) (v : Bool) :
    List.Forall₂ (SelOnly (fun x => (x.Path == path) = true)) m.items
      (updateFirst (fun it => it.Path == path)
        (fun it => { it with Selected := v }) m.items) :=
  updateFirst_selOnly _ v m.items

/-- Shape of toggleSelection on a known, non-ignored target: some
selection-only edit confined to the target and its separated
descendants, followed by the upward recomputation and a refresh. -/
theorem toggleSelection_shape (m : Model) (path : GoStr) (tgt : FileItem)
    (hfind : m.items.find? (fun it => it.Path == path) = some tgt)
    (hig : isGitIgnored m path = false) :
    ∃ L : List FileItem,
      List.Forall₂ (SelOnly (fun x => (x.Path == path) = true ∨
        (strHasPref x.Path (path ++ [sep]) &&
          !(isGitIgnored m x.Path)) = true)) m.items L ∧
      toggleSelection m path = refreshVisibleItems
        (updateParentSelectionState { m with items := L } path
          path.length) := by
  have htgt : tgt.Path = path := by
    have h := List.find?_some (p := fun (it : FileItem) => it.Path == path) hfind
    simpa using h
  have hig2 : isGitIgnored m tgt.Path = false := by rw [htgt]; exact hig
  unfold toggleSelection
  rw [hfind]
  simp only [hig2]
  simp only [Bool.false_eq_true, if_false, Option.isSome_none, Option.getD_none]
  by_cases hd : tgt.IsDir = true
  · simp only [hd, if_true]
    by_cases hs : tgt.Selected = true
    · simp only [hs]
      simp only [Bool.and_true, Bool.false_and, Bool.or_false, if_true,
        Bool.not_false, Bool.and_false, Bool.true_and]
      have h1 := setOwn_rel m path false
      set l0 := updateFirst (fun it => it.Path == path)
        (fun it => { it with Selected := false }) m.items with hl0
      have h2 := cascade_rel { m with items := l0 } path false
      exact ⟨(setSelectionStateForDescendants { m with items := l0 }
        path false).items,
        forall₂_selOnly_trans (fun x y hxy hQ => by
          rw [hxy.1] at hQ; exact hQ) h1 h2, rfl⟩
    · have hs' : tgt.Selected = false := by simpa using hs
      simp only [hs']
      simp only [Bool.and_true, Bool.false_and, Bool.or_false,
        Bool.false_or, Bool.not_false, Bool.and_false, Bool.true_and,
        Bool.false_eq_true, if_false]
      have h1 := setOwn_rel m path true
      set l0 := updateFirst (fun it => it.Path == path)
        (fun it => { it with Selected := true }) m.items with hl0
      have h2 := cascade_rel { m with items := l0 } path true
      exact ⟨(setSelectionStateForDescendants { m with items := l0 }
        path true).items,
        forall₂_selOnly_trans (fun x y hxy hQ => by
          rw [hxy.1] at hQ; exact hQ) h1 h2, rfl⟩
  · have hd' : tgt.IsDir = false := by simpa using hd
    simp only [hd', Bool.false_eq_true, if_false]
    exact ⟨_, forall₂_selOnly_mono (fun x h => Or.inl h)
      (setOwn_rel m path !tgt.Selected), rfl⟩

theorem isGitIgnored_congr {m m' : Model}
    (h : m'.gitignoreRegexp = m.gitignoreRegexp) (q : GoStr) :
    isGitIgnored m' q = isGitIgnored m q := by
  unfold isGitIgnored
  rw [h]

/-- C1 (amended).  After toggleSelection on a present, non-ignored path
in a store with unique paths strictly below the working directory,
every directory entry whose path the upward walk recomputes (each
ancestor of the toggled path strictly below the root that is present as
a directory, until the first missing one) is selected iff it has at
least one loaded descendant and every non-ignored loaded descendant is
selected.  The original claim instead demanded at least one non-ignored
descendant and covered the toggled directory itself; both parts fail on
the code (see the counterexample). -/
theorem toggleSelection_cascade_invariant (m : Model) (path : GoStr)
    (tgt : FileItem)
    (hnd : (m.items.map FileItem.Path).Nodup)
    (hwf : ∀ it ∈ m.items, m.cwd.length + 1 < it.Path.length)
    (hfind : m.items.find? (fun it => it.Path == path) = some tgt)
    (hig : isGitIgnored m path = false) :
    ∀ it' ∈ (toggleSelection m path).items,
      it'.Path ∈ ancestorsUpdated m.items m.cwd path path.length →
      (it'.Selected = true ↔
        ((∃ d ∈ (toggleSelection m path).items,
            strHasPref d.Path (it'.Path ++ [sep]) = true) ∧
         (∀ d ∈ (toggleSelection m path).items,
            strHasPref d.Path (it'.Path ++ [sep]) = true →
            isGitIgnored m d.Path = false → d.Selected = true))) := by
  obtain ⟨L, hrelL, heq⟩ := toggleSelection_shape m path tgt hfind hig
  have hLmap : L.map FileItem.Path = m.items.map FileItem.Path :=
    forall₂_selOnly_path_map hrelL
  have hndL : (L.map FileItem.Path).Nodup := by rw [hLmap]; exact hnd
  have hwfL : ∀ it ∈ L, m.cwd.length + 1 < it.Path.length := by
    intro b hb
    obtain ⟨x, hx, hxr⟩ := forall₂_mem_right hrelL b hb
    rw [hxr.1]
    exact hwf x hx
  have hframe2 := updateParent_frame path.length { m with items := L } path
  have h2map : (updateParentSelectionState { m with items := L } path
      path.length).items.map FileItem.Path = L.map FileItem.Path :=
    forall₂_selOnly_path_map hframe2
  have hnd2 : ((updateParentSelectionState { m with items := L } path
      path.length).items.map FileItem.Path).Nodup := by
    rw [h2map, hLmap]; exact hnd
  have hritems : (refreshVisibleItems (updateParentSelectionState
      { m with items := L } path path.length)).items =
      (updateParentSelectionState { m with items := L } path
        path.length).items :=
    refresh_items_eq _ hnd2
  have hpost := updateParent_post path.length { m with items := L } path
    hndL hwfL
  have hanc : ancestorsUpdated L m.cwd path path.length =
      ancestorsUpdated m.items m.cwd path path.length :=
    ancestorsUpdated_congr _ _ _ hrelL
  have hgi2 : (updateParentSelectionState { m with items := L } path
      path.length).gitignoreRegexp = m.gitignoreRegexp := by
    have h := updateParent_eq_items path.length { m with items := L } path
    rw [h]
  intro it' hit' hmem
  rw [heq] at hit'
  rw [hritems] at hit'
  rw [← hanc] at hmem
  have hsel := hpost it' hit' hmem
  have hspec := areAll_spec (updateParentSelectionState
    { m with items := L } path path.length) it'.Path hnd2
  rw [hsel, hspec]
  constructor
  · intro hs2
    refine ⟨?_, ?_⟩
    · obtain ⟨d, hd, hdp⟩ := hs2.1
      refine ⟨d, ?_, hdp⟩
      rw [heq, hritems]
      exact hd
    · intro d hd hdp hdig
      rw [heq, hritems] at hd
      apply hs2.2 d hd hdp
      rw [isGitIgnored_congr hgi2]
      exact hdig
  · intro hcond
    refine ⟨?_, ?_⟩
    · obtain ⟨d, hd, hdp⟩ := hcond.1
      rw [heq, hritems] at hd
      exact ⟨d, hd, hdp⟩
    · intro d hd hdp hdig
      refine hcond.2 d ?_ hdp ?_
      · rw [heq, hritems]
        exact hd
      · rw [← isGitIgnored_congr hgi2]
        exact hdig

/-- A file entry with all-default flags, for concrete test stores. -/
def baseItem (p n : GoStr) : FileItem :=
  { Path := p, Name := n, IsDir := false, Selected := false, Depth := 0,
    Expanded := false, GitIgnored := false, ChildrenLoaded := false,
    MatchesContent := false }

/-- An entry with the listed flags, for concrete test stores: path,
name, directory flag, selected, depth, expanded, gitignored,
children-loaded. -/
def mkItem (p n : GoStr) (dir sel : Bool) (dep : Nat)
    (ex ig cl : Bool) : FileItem :=
  { Path := p, Name := n, IsDir := dir, Selected := sel, Depth := dep,
    Expanded := ex, GitIgnored := ig, ChildrenLoaded := cl,
    MatchesContent := false }

/-- A model with all-default flags, for concrete test stores. -/
def baseModel (items : List FileItem) (cwd : GoStr)
    (ig : Option (GoStr → Bool)) : Model :=
  { items := items, cwd := cwd, gitignoreRegexp := ig,
    contentSearchMode := false, listItems := [], isLoading := false,
    errors := [], showErrors := false, isInSearchResults := false }

/-- Store for the C1 counterexample: a loaded directory whose only
descendant is gitignored. -/
def cexC1Model : Model :=
  baseModel
    [mkItem "/w/d".toList "d".toList true false 0 true false true,
     mkItem "/w/d/c".toList "c".toList false false 1 false true false]
    "/w".toList (some (fun p => p == "/w/d/c".toList))

/-- C1, counterexample to the claim as stated: toggling the loaded
directory /w/d, whose only descendant is gitignored, leaves the
directory selected although it has no non-ignored descendant at all, so
selected is not equivalent to all-non-ignored-descendants-selected-and-
at-least-one-exists. -/
theorem cascade_invariant_counterexample :
    ∃ d ∈ (toggleSelection cexC1Model "/w/d".toList).items,
      d.Path = "/w/d".toList ∧ d.IsDir = true ∧ d.ChildrenLoaded = true ∧
      d.Selected = true ∧
      ¬ ∃ e ∈ (toggleSelection cexC1Model "/w/d".toList).items,
          strHasPref e.Path (d.Path ++ [sep]) = true ∧
          isGitIgnored cexC1Model e.Path = false := by
  decide

/-- Store for the C1 witness: a loaded directory with two plain child
files, one of them selected. -/
def witC1Model : Model :=
  baseModel
    [mkItem "/w/d".toList "d".toList true false 0 true false true,
     mkItem "/w/d/a".toList "a".toList false false 1 false false false,
     mkItem "/w/d/b".toList "b".toList false true 1 false false false]
    "/w".toList none

/-- C1, witness: the amended cascade theorem applied to a concrete
store, with every hypothesis discharged by evaluation. -/
theorem cascade_invariant_witness :
    ((witC1Model.items.map FileItem.Path).Nodup ∧
     (∀ it ∈ witC1Model.items,
        witC1Model.cwd.length + 1 < it.Path.length) ∧
     witC1Model.items.find? (fun it => it.Path == "/w/d/a".toList) =
       some (mkItem "/w/d/a".toList "a".toList false false 1
         false false false) ∧
     isGitIgnored witC1Model "/w/d/a".toList = false) ∧
    (∀ it' ∈ (toggleSelection witC1Model "/w/d/a".toList).items,
      it'.Path ∈ ancestorsUpdated witC1Model.items witC1Model.cwd
        "/w/d/a".toList ("/w/d/a".toList).length →
      (it'.Selected = true ↔
        ((∃ d ∈ (toggleSelection witC1Model "/w/d/a".toList).items,
            strHasPref d.Path (it'.Path ++ [sep]) = true) ∧
         (∀ d ∈ (toggleSelection witC1Model "/w/d/a".toList).items,
            strHasPref d.Path (it'.Path ++ [sep]) = true →
            isGitIgnored witC1Model d.Path = false →
            d.Selected = true)))) :=
  ⟨⟨by decide, by decide, by decide, by decide⟩,
    toggleSelection_cascade_invariant witC1Model "/w/d/a".toList
      (mkItem "/w/d/a".toList "a".toList false false 1 false false false)
      (by decide) (by decide) (by decide) (by decide)⟩

/-- C10.  Toggling selection on a directory path touches only the entry
at that path, entries whose path extends it across a separator, and the
iterated parent paths of the toggled path: every other entry of a
unique-path store is found unchanged afterwards.  In particular an entry
whose path merely extends the toggled path as a raw string without a
separator boundary, such as a sibling src2 next to src, is never
affected. -/
theorem toggleSelection_frame (m : Model) (path : GoStr) (tgt : FileItem)
    (hnd : (m.items.map FileItem.Path).Nodup)
    (hwf : ∀ it ∈ m.items, m.cwd.length + 1 < it.Path.length)
    (hfind : m.items.find? (fun it => it.Path == path) = some tgt)
    (hig : isGitIgnored m path = false) :
    (∀ e ∈ m.items, e.Path ≠ path →
      strHasPref e.Path (path ++ [sep]) = false →
      e.Path ∉ dirChain m.cwd path path.length →
      (toggleSelection m path).items.find? (fun it => it.Path == e.Path) =
        some e) ∧
    (∀ e ∈ m.items, ∀ c : Char, ∀ s : GoStr,
      e.Path = path ++ c :: s → c ≠ sep →
      (toggleSelection m path).items.find? (fun it => it.Path == e.Path) =
        some e) := by
  have htgtpath : tgt.Path = path := by
    have h := List.find?_some (p := fun (it : FileItem) => it.Path == path) hfind
    simpa using h
  have htgtmem : tgt ∈ m.items := List.mem_of_find?_eq_some hfind
  have hpathlen : m.cwd.length + 1 < path.length := by
    have := hwf tgt htgtmem
    rw [htgtpath] at this
    exact this
  obtain ⟨L, hrelL, heq⟩ := toggleSelection_shape m path tgt hfind hig
  have hframe2 := updateParent_frame path.length { m with items := L } path
  have htot := forall₂_selOnly_trans
    (fun x y hxy hQ => ⟨hxy.1 ▸ hQ.1, hxy.2.2.1 ▸ hQ.2⟩) hrelL hframe2
  have hLmap : L.map FileItem.Path = m.items.map FileItem.Path :=
    forall₂_selOnly_path_map hrelL
  have h2map : (updateParentSelectionState { m with items := L } path
      path.length).items.map FileItem.Path = L.map FileItem.Path :=
    forall₂_selOnly_path_map hframe2
  have hnd2 : ((updateParentSelectionState { m with items := L } path
      path.length).items.map FileItem.Path).Nodup := by
    rw [h2map, hLmap]; exact hnd
  have hritems : (refreshVisibleItems (updateParentSelectionState
      { m with items := L } path path.length)).items =
      (updateParentSelectionState { m with items := L } path
        path.length).items :=
    refresh_items_eq _ hnd2
  have main : ∀ e ∈ m.items, e.Path ≠ path →
      strHasPref e.Path (path ++ [sep]) = false →
      e.Path ∉ dirChain m.cwd path path.length →
      (toggleSelection m path).items.find? (fun it => it.Path == e.Path) =
        some e := by
    intro e he hne hpref hchain
    rw [heq, hritems]
    have hme : m.items.find? (fun it => it.Path == e.Path) = some e :=
      find?_path_self hnd he
    rcases find?_transport (fun it => it.Path == e.Path)
        (fun a b hab => by
          show (b.Path == e.Path) = (a.Path == e.Path)
          rw [hab.1]) htot with ⟨h1, _⟩ | ⟨a, b, hab, h1, h2⟩
    · rw [hme] at h1
      exact absurd h1 (by simp)
    · rw [hme] at h1
      have hae : a = e := by
        have := Option.some.inj h1
        exact this.symm
      rw [h2]
      have hbe : b = e := by
        apply selOnly_eq (hae ▸ hab)
        intro hP
        rcases hP with hP | hP
        · rcases hP with hP | hP
          · exact hne (by simpa using hP)
          · have hP1 := (Bool.and_eq_true_iff.mp hP).1
            rw [hP1] at hpref
            simp at hpref
        · exact hchain hP.1
      rw [hbe]
  refine ⟨main, ?_⟩
  intro e he c s hextend hc
  have hlen2 : 2 ≤ path.length := by omega
  apply main e he
  · intro h
    rw [h] at hextend
    have : path.length = path.length + (s.length + 1) := by
      conv_lhs => rw [hextend]
      simp
    omega
  · rw [hextend]
    unfold strHasPref
    rw [Bool.eq_false_iff]
    intro hpre
    have hpre2 : (path ++ [sep]) <+: (path ++ c :: s) :=
      List.isPrefixOf_iff_prefix.mp hpre
    have h3 : [sep] <+: c :: s := (List.prefix_append_right_inj path).mp hpre2
    have h4 := List.cons_prefix_cons.mp h3
    exact hc h4.1.symm
  · intro hmem
    have hle := mem_dirChain_length hmem
    have hlt := length_dirOf_lt path hlen2
    rw [hextend] at hle
    simp only [List.length_append, List.length_cons] at hle
    omega

/-- Store for the C10 witness: sibling directories src and src2 where
the latter is a raw-string extension of the former without a separator
boundary, plus children of both. -/
def witC10Model : Model :=
  baseModel
    [mkItem "/w/src".toList "src".toList true false 0 true false true,
     mkItem "/w/src2".toList "src2".toList true true 0 true false true,
     mkItem "/w/src/a.go".toList "a.go".toList false false 1 false false false,
     mkItem "/w/src2/b.go".toList "b.go".toList false true 1 false false false]
    "/w".toList none

/-- C10, witness: the frame theorem applied to the concrete sibling
store; the sibling src2 and its child are delivered unchanged. -/
theorem toggleSelection_frame_witness :
    ((witC10Model.items.map FileItem.Path).Nodup ∧
     (∀ it ∈ witC10Model.items,
        witC10Model.cwd.length + 1 < it.Path.length) ∧
     witC10Model.items.find? (fun it => it.Path == "/w/src".toList) =
       some (mkItem "/w/src".toList "src".toList true false 0
         true false true) ∧
     isGitIgnored witC10Model "/w/src".toList = false) ∧
    ((∀ e ∈ witC10Model.items, e.Path ≠ "/w/src".toList →
      strHasPref e.Path ("/w/src".toList ++ [sep]) = false →
      e.Path ∉ dirChain witC10Model.cwd "/w/src".toList
        ("/w/src".toList).length →
      (toggleSelection witC10Model "/w/src".toList).items.find?
        (fun it => it.Path == e.Path) = some e) ∧
    (∀ e ∈ witC10Model.items, ∀ c : Char, ∀ s : GoStr,
      e.Path = "/w/src".toList ++ c :: s → c ≠ sep →
      (toggleSelection witC10Model "/w/src".toList).items.find?
        (fun it => it.Path == e.Path) = some e)) :=
  ⟨⟨by decide, by decide, by decide, by decide⟩,
    toggleSelection_frame witC10Model "/w/src".toList
      (mkItem "/w/src".toList "src".toList true false 0 true false true)
      (by decide) (by decide) (by decide) (by decide)⟩

theorem forall₂_map_self {R : FileItem → FileItem → Prop}
    (f : FileItem → FileItem) (hf : ∀ it, R it (f it)) :
    ∀ l : List FileItem, List.Forall₂ R l (l.map f) := by
  intro l
  induction l with
  | nil => exact List.Forall₂.nil
  | cons x xs ih => exact List.Forall₂.cons (hf x) ih

/-- Store for the C6 counterexample: a gitignored directory whose child
is not gitignored. -/
def cexC6Model : Model :=
  baseModel
    [mkItem "/w/d".toList "d".toList true false 0 true true true,
     mkItem "/w/d/c".toList "c".toList false false 1 false false false]
    "/w".toList (some (fun p => p == "/w/d".toList))

/-- C6, counterexample to the claim as stated: toggling the non-ignored
child of a gitignored directory makes the upward recomputation set the
ignored directory entry selected, so selection operations do change the
selected field of an ignored entry. -/
theorem ignored_isolation_counterexample :
    ∃ d ∈ (toggleSelection cexC6Model "/w/d/c".toList).items,
      d.Path = "/w/d".toList ∧ isGitIgnored cexC6Model d.Path = true ∧
      d.Selected = true := by
  decide

/-- C6 (amended).  Ignored entries are untouched by direct toggles (a
toggle on an ignored path is a complete no-op) and by the downward
cascade, and an ignored non-directory entry is never changed by any
toggle at all; only the upward ancestor recomputation can rewrite an
ignored directory entry, as the counterexample shows. -/
theorem toggleSelection_ignored_isolation (m : Model)
    (hnd : (m.items.map FileItem.Path).Nodup) :
    (∀ p : GoStr, isGitIgnored m p = true → toggleSelection m p = m) ∧
    (∀ pp : GoStr, ∀ v : Bool, List.Forall₂
      (fun a b => isGitIgnored m a.Path = true → b = a) m.items
      (setSelectionStateForDescendants m pp v).items) ∧
    (∀ p : GoStr, ∀ e ∈ m.items, isGitIgnored m e.Path = true →
      e.IsDir = false →
      (toggleSelection m p).items.find? (fun it => it.Path == e.Path) =
        some e) := by
  have hpart1 : ∀ p : GoStr, isGitIgnored m p = true →
      toggleSelection m p = m := by
    intro p hig
    unfold toggleSelection
    cases hf : m.items.find? (fun it => it.Path == p) with
    | none => rfl
    | some tgt =>
      have htgt : tgt.Path = p := by
        have h := List.find?_some (p := fun (it : FileItem) => it.Path == p) hf
        simpa using h
      have hig' : isGitIgnored m tgt.Path = true := by rw [htgt]; exact hig
      simp [hig']
  refine ⟨hpart1, ?_, ?_⟩
  · intro pp v
    unfold setSelectionStateForDescendants
    apply forall₂_map_self
    intro it hig
    simp [hig]
  · intro p e he hige hdire
    cases hf : m.items.find? (fun it => it.Path == p) with
    | none =>
      have : toggleSelection m p = m := by
        unfold toggleSelection
        rw [hf]
      rw [this]
      exact find?_path_self hnd he
    | some tgt =>
      by_cases higp : isGitIgnored m p = true
      · rw [hpart1 p higp]
        exact find?_path_self hnd he
      · have higp' : isGitIgnored m p = false := by simpa using higp
        obtain ⟨L, hrelL, heq⟩ := toggleSelection_shape m p tgt hf higp'
        have hframe2 := updateParent_frame p.length { m with items := L } p
        have htot := forall₂_selOnly_trans
          (fun x y hxy hQ => ⟨hxy.1 ▸ hQ.1, hxy.2.2.1 ▸ hQ.2⟩) hrelL hframe2
        have hLmap : L.map FileItem.Path = m.items.map FileItem.Path :=
          forall₂_selOnly_path_map hrelL
        have h2map : (updateParentSelectionState { m with items := L } p
            p.length).items.map FileItem.Path = L.map FileItem.Path :=
          forall₂_selOnly_path_map hframe2
        have hnd2 : ((updateParentSelectionState { m with items := L } p
            p.length).items.map FileItem.Path).Nodup := by
          rw [h2map, hLmap]; exact hnd
        have hritems : (refreshVisibleItems (updateParentSelectionState
            { m with items := L } p p.length)).items =
            (updateParentSelectionState { m with items := L } p
              p.length).items :=
          refresh_items_eq _ hnd2
        rw [heq, hritems]
        have hme : m.items.find? (fun it => it.Path == e.Path) = some e :=
          find?_path_self hnd he
        rcases find?_transport (fun it => it.Path == e.Path)
            (fun a b hab => by
              show (b.Path == e.Path) = (a.Path == e.Path)
              rw [hab.1]) htot with ⟨h1, _⟩ | ⟨a, b, hab, h1, h2⟩
        · rw [hme] at h1
          exact absurd h1 (by simp)
        · rw [hme] at h1
          have hae : a = e := (Option.some.inj h1).symm
          rw [h2]
          have hbe : b = e := by
            apply selOnly_eq (hae ▸ hab)
            intro hP
            rcases hP with hP | hP
            · rcases hP with hP | hP
              · have hep : e.Path = p := by simpa using hP
                rw [hep] at hige
                rw [hige] at higp'
                simp at higp'
              · have hP2 := (Bool.and_eq_true_iff.mp hP).2
                rw [hige] at hP2
                simp at hP2
            · rw [hdire] at hP
              simp at hP
          rw [hbe]

/-- Store for the C6 witness: an ignored file next to a plain directory
with a child. -/
def witC6Model : Model :=
  baseModel
    [mkItem "/w/d".toList "d".toList true false 0 true false true,
     mkItem "/w/d/a".toList "a".toList false false 1 false false false,
     mkItem "/w/skip.log".toList "skip.log".toList false false 0
       false true false]
    "/w".toList (some (fun p => p == "/w/skip.log".toList))

/-- C6, witness: the amended isolation theorem applied to a concrete
store containing an ignored file. -/
theorem ignored_isolation_witness :
    (witC6Model.items.map FileItem.Path).Nodup ∧
    ((∀ p : GoStr, isGitIgnored witC6Model p = true →
        toggleSelection witC6Model p = witC6Model) ∧
     (∀ pp : GoStr, ∀ v : Bool, List.Forall₂
        (fun a b => isGitIgnored witC6Model a.Path = true → b = a)
        witC6Model.items
        (setSelectionStateForDescendants witC6Model pp v).items) ∧
     (∀ p : GoStr, ∀ e ∈ witC6Model.items,
        isGitIgnored witC6Model e.Path = true → e.IsDir = false →
        (toggleSelection witC6Model p).items.find?
          (fun it => it.Path == e.Path) = some e)) :=
  ⟨by decide, toggleSelection_ignored_isolation witC6Model (by decide)⟩

/-- Store for the C2 counterexample: one unloaded, collapsed directory. -/
def cexC2Model : Model :=
  baseModel
    [mkItem "/w/d".toList "d".toList true false 0 false false false]
    "/w".toList none

/-- C2, counterexample to the claim as stated: expanding the directory
dispatches a load; delivering the load error leaves childrenLoaded
false on the parent (the errMsg handler touches no entry), and
collapsing and re-expanding the directory dispatches the load again, so
the failed load is retried rather than recorded as loaded with zero
children. -/
theorem load_failure_counterexample :
    ((updateErrMsg (toggleExpansion cexC2Model "/w/d".toList).1
        "read error".toList).items.map
      (fun d => (d.Path, d.ChildrenLoaded)) =
        [("/w/d".toList, false)]) ∧
    (toggleExpansion
      (toggleExpansion
        (updateErrMsg (toggleExpansion cexC2Model "/w/d".toList).1
          "read error".toList)
        "/w/d".toList).1
      "/w/d".toList).2 = some "/w/d".toList := by
  decide

/-- C2 (amended).  A failed lazy load is reported through the error
list and changes no entry state at all, and the parent keeps
childrenLoaded = false; consequently a later expansion of a collapsed,
still-unloaded directory dispatches the load again. -/
theorem load_failure_semantics (m : Model) (e p : GoStr) (d : FileItem)
    (hfind : m.items.find? (fun it => it.Path == p) = some d)
    (hdir : d.IsDir = true) (hexp : d.Expanded = false)
    (hcl : d.ChildrenLoaded = false) :
    (updateErrMsg m e).items = m.items ∧
    (updateErrMsg m e).errors = m.errors ++ [e] ∧
    (updateErrMsg m e).showErrors = true ∧
    (updateErrMsg m e).isLoading = false ∧
    (toggleExpansion m p).2 = some p := by
  refine ⟨rfl, rfl, rfl, rfl, ?_⟩
  unfold toggleExpansion
  rw [hfind]
  simp [hdir, hexp, hcl]

/-- C2, witness: the amended failure-semantics theorem applied to the
concrete one-directory store. -/
theorem load_failure_witness :
    (cexC2Model.items.find? (fun it => it.Path == "/w/d".toList) =
      some (mkItem "/w/d".toList "d".toList true false 0
        false false false)) ∧
    ((updateErrMsg cexC2Model "boom".toList).items = cexC2Model.items ∧
     (updateErrMsg cexC2Model "boom".toList).errors =
       cexC2Model.errors ++ ["boom".toList] ∧
     (updateErrMsg cexC2Model "boom".toList).showErrors = true ∧
     (updateErrMsg cexC2Model "boom".toList).isLoading = false ∧
     (toggleExpansion cexC2Model "/w/d".toList).2 =
       some "/w/d".toList) :=
  ⟨by decide,
    load_failure_semantics cexC2Model "boom".toList "/w/d".toList
      (mkItem "/w/d".toList "d".toList true false 0 false false false)
      (by decide) (by decide) (by decide) (by decide)⟩

/-- The parent directory used by the C3 failing input, sitting at depth
one below the root. -/
def cexC3Parent : FileItem :=
  mkItem "/w/a/b".toList "b".toList true false 1 true false true

/-- C3.  ui.LoadDirectoryChildren computes the child depth from
filepath.Rel of the directory with itself, which is always the dot
path, so every lazily loaded child carries depth 1 regardless of its
parent: for the depth-1 parent /w/a/b the loaded child gets depth 1
while the parent depth plus one is 2, contradicting the depth
invariant the specification states and the loader comment intends. -/
theorem lazy_load_depth_bug :
    ((LoadDirectoryChildren cexC3Parent.Path none true
      [{ name := "c.txt".toList, isDir := false }]).map
        (fun c => (c.Path, c.Depth)) =
      [("/w/a/b/c.txt".toList, 1)]) ∧
    cexC3Parent.Depth + 1 = 2 := by
  decide

theorem updateFirst_path_map (pred : FileItem → Bool) (f : FileItem → FileItem)
    (hf : ∀ x, (f x).Path = x.Path) :
    ∀ l : List FileItem,
      (updateFirst pred f l).map FileItem.Path = l.map FileItem.Path := by
  intro l
  induction l with
  | nil => rfl
  | cons x xs ih =>
    by_cases hx : pred x = true
    · simp [updateFirst, hx, hf x]
    · simp [updateFirst, hx, ih]

theorem updateFirst_id {pred : FileItem → Bool} {f : FileItem → FileItem} :
    ∀ l : List FileItem, (∀ x ∈ l, pred x = true → f x = x) →
      updateFirst pred f l = l := by
  intro l
  induction l with
  | nil => intro _; rfl
  | cons x xs ih =>
    intro h
    by_cases hx : pred x = true
    · simp [updateFirst, hx, h x (List.mem_cons_self _ _) hx]
    · simp only [updateFirst, if_neg hx]
      rw [ih fun y hy => h y (List.mem_cons_of_mem _ hy)]

theorem cl_update_self {it : FileItem} (h : it.ChildrenLoaded = true) :
    { it with ChildrenLoaded := true } = it := by
  cases it; simp_all

theorem updateFirst_pairs (pred : FileItem → Bool) (f : FileItem → FileItem)
    (hf : ∀ x, (f x).Path = x.Path ∧ (f x).Selected = x.Selected) :
    ∀ l : List FileItem, List.Forall₂
      (fun a b => b.Path = a.Path ∧ b.Selected = a.Selected) l
      (updateFirst pred f l) := by
  intro l
  induction l with
  | nil => exact List.Forall₂.nil
  | cons x xs ih =>
    by_cases hx : pred x = true
    · simp only [updateFirst, if_pos hx]
      exact List.Forall₂.cons (hf x)
        (List.forall₂_same.mpr fun a _ => ⟨rfl, rfl⟩)
    · simp only [updateFirst, if_neg hx]
      exact List.Forall₂.cons ⟨rfl, rfl⟩ ih

/-- The childrenLoadedMsg handler, with unique incoming and stored
paths, yields the marked store followed by the de-duplicated children,
and keeps paths unique. -/
theorem updateChildrenLoaded_items_eq (m : Model) (pp : GoStr)
    (children : List FileItem)
    (hnd : (m.items.map FileItem.Path).Nodup)
    (hcnd : (children.map FileItem.Path).Nodup) :
    (updateChildrenLoaded m pp children).items =
      updateFirst (fun it => it.Path == pp)
        (fun it => { it with ChildrenLoaded := true }) m.items ++
      children.filter (fun c => !(((updateFirst (fun it => it.Path == pp)
        (fun it => { it with ChildrenLoaded := true }) m.items).map
          (fun it => it.Path)).contains c.Path)) ∧
    ((updateChildrenLoaded m pp children).items.map FileItem.Path).Nodup := by
  have hmap1 : (updateFirst (fun it => it.Path == pp)
      (fun it => { it with ChildrenLoaded := true }) m.items).map
        FileItem.Path = m.items.map FileItem.Path :=
    updateFirst_path_map (fun it => it.Path == pp)
      (fun it => { it with ChildrenLoaded := true })
      (fun x => rfl) m.items
  have hnd1 : ((updateFirst (fun it => it.Path == pp)
      (fun it => { it with ChildrenLoaded := true }) m.items).map
        FileItem.Path).Nodup := by rw [hmap1]; exact hnd
  have hndnew : ((children.filter (fun c =>
      !(((updateFirst (fun it => it.Path == pp)
        (fun it => { it with ChildrenLoaded := true }) m.items).map
          (fun it => it.Path)).contains c.Path))).map FileItem.Path).Nodup :=
    ((List.filter_sublist children).map FileItem.Path).nodup hcnd
  have hdisj : ∀ q ∈ ((children.filter (fun c =>
      !(((updateFirst (fun it => it.Path == pp)
        (fun it => { it with ChildrenLoaded := true }) m.items).map
          (fun it => it.Path)).contains c.Path))).map FileItem.Path),
      q ∉ ((updateFirst (fun it => it.Path == pp)
        (fun it => { it with ChildrenLoaded := true }) m.items).map
          FileItem.Path) := by
    intro q hq hq2
    obtain ⟨c, hc, hcq⟩ := List.mem_map.mp hq
    have hcf := (List.mem_filter.mp hc).2
    simp only [Bool.not_eq_true'] at hcf
    apply Bool.false_ne_true
    rw [← hcf]
    apply List.contains_iff_exists_mem_beq.mpr
    exact ⟨c.Path, by rw [hcq]; exact hq2, by simp⟩
  have hnd2 : (((updateFirst (fun it => it.Path == pp)
      (fun it => { it with ChildrenLoaded := true }) m.items ++
      children.filter (fun c => !(((updateFirst (fun it => it.Path == pp)
        (fun it => { it with ChildrenLoaded := true }) m.items).map
          (fun it => it.Path)).contains c.Path))).map FileItem.Path)).Nodup := by
    rw [List.map_append]
    exact List.nodup_append.mpr ⟨hnd1, hndnew, fun q hq1 hq2 =>
      hdisj q hq2 hq1⟩
  constructor
  · show (refreshVisibleItems _).items = _
    exact refresh_items_eq _ hnd2
  · show ((refreshVisibleItems _).items.map FileItem.Path).Nodup
    rw [refresh_items_eq _ hnd2]
    exact hnd2

/-- A merge whose parent mark is a no-op and whose children are all
already present leaves the item list unchanged. -/
theorem updateChildrenLoaded_of_loaded (m1 : Model) (pp : GoStr)
    (children : List FileItem)
    (hnd1 : (m1.items.map FileItem.Path).Nodup)
    (hA : updateFirst (fun it => it.Path == pp)
      (fun it => { it with ChildrenLoaded := true }) m1.items = m1.items)
    (hB : ∀ c ∈ children,
      ((m1.items.map (fun it => it.Path)).contains c.Path) = true) :
    (updateChildrenLoaded m1 pp children).items = m1.items := by
  unfold updateChildrenLoaded
  dsimp only
  rw [hA]
  have hB' : children.filter (fun c =>
      !((m1.items.map (fun it => it.Path)).contains c.Path)) = [] := by
    rw [List.filter_eq_nil_iff]
    intro c hc
    simp only [hB c hc]
    simp
  rw [hB', List.append_nil]
  exact refresh_items_eq _ hnd1

/-- C5.  Delivering the same lazy-load result twice is idempotent: the
second merge leaves the item list unchanged (in particular the store
size), every entry at the parent path has childrenLoaded = true after
either merge, and paths stay unique throughout. -/
theorem mergeChildren_idempotent (m : Model) (pp : GoStr)
    (children : List FileItem)
    (hnd : (m.items.map FileItem.Path).Nodup)
    (hcnd : (children.map FileItem.Path).Nodup)
    (d₀ : FileItem) (hd₀ : d₀ ∈ m.items) (hd₀p : d₀.Path = pp) :
    (updateChildrenLoaded (updateChildrenLoaded m pp children) pp
        children).items = (updateChildrenLoaded m pp children).items ∧
    (∀ d ∈ (updateChildrenLoaded m pp children).items, d.Path = pp →
      d.ChildrenLoaded = true) ∧
    (((updateChildrenLoaded m pp children).items.map FileItem.Path).Nodup) := by
  obtain ⟨heq1, hnd1⟩ := updateChildrenLoaded_items_eq m pp children hnd hcnd
  have hfind0 : m.items.find? (fun it => it.Path == pp) = some d₀ := by
    have := find?_path_self hnd hd₀
    rw [hd₀p] at this
    exact this
  obtain ⟨la, lb, hdecomp, hlafalse, hupd⟩ :=
    updateFirst_decomp (fun it => it.Path == pp)
      (fun it => { it with ChildrenLoaded := true }) hfind0
  have hcl : ∀ d ∈ (updateChildrenLoaded m pp children).items, d.Path = pp →
      d.ChildrenLoaded = true := by
    intro d hd hdp
    rw [heq1] at hd
    rcases List.mem_append.mp hd with hd1 | hd2
    · rw [hupd] at hd1
      rcases List.mem_append.mp hd1 with hdla | hdmid
      · have := hlafalse d hdla
        rw [hdp] at this
        simp at this
      · rcases List.mem_cons.mp hdmid with hdeq | hdlb
        · rw [hdeq]
        · exfalso
          rw [hdecomp] at hnd
          simp only [List.map_append, List.map_cons] at hnd
          have h2 := List.nodup_append.mp hnd
          have : d.Path ∈ lb.map FileItem.Path := List.mem_map_of_mem _ hdlb
          rw [hdp, ← hd₀p] at this
          exact (List.nodup_cons.mp h2.2.1).1 this
    · exfalso
      have hcf := (List.mem_filter.mp hd2).2
      simp only [Bool.not_eq_true'] at hcf
      apply Bool.false_ne_true
      rw [← hcf]
      apply List.contains_iff_exists_mem_beq.mpr
      refine ⟨d.Path, ?_, by simp⟩
      rw [hdp]
      have hmm : d₀.Path ∈ (updateFirst (fun it => it.Path == pp)
          (fun it => { it with ChildrenLoaded := true }) m.items).map
            (fun it => it.Path) := by
        rw [hupd]
        simp only [List.map_append, List.map_cons]
        apply List.mem_append_right
        exact List.mem_cons_self _ _
      exact hd₀p ▸ hmm
  refine ⟨?_, hcl, hnd1⟩
  have hstepA : updateFirst (fun it => it.Path == pp)
      (fun it => { it with ChildrenLoaded := true })
      (updateChildrenLoaded m pp children).items =
      (updateChildrenLoaded m pp children).items := by
    apply updateFirst_id
    intro x hx hxp
    have hxp' : x.Path = pp := by simpa using hxp
    exact cl_update_self (hcl x hx hxp')
  have hstepB : ∀ c ∈ children,
      (((updateChildrenLoaded m pp children).items.map
        (fun it => it.Path)).contains c.Path) = true := by
    intro c hc
    apply List.contains_iff_exists_mem_beq.mpr
    refine ⟨c.Path, ?_, by simp⟩
    rw [heq1]
    simp only [List.map_append]
    by_cases hin : ((updateFirst (fun it => it.Path == pp)
        (fun it => { it with ChildrenLoaded := true }) m.items).map
          (fun it => it.Path)).contains c.Path = true
    · apply List.mem_append_left
      obtain ⟨q, hq, hqe⟩ := List.contains_iff_exists_mem_beq.mp hin
      have : c.Path = q := by simpa using hqe
      rw [this]
      exact hq
    · apply List.mem_append_right
      apply List.mem_map_of_mem
      apply List.mem_filter.mpr
      refine ⟨hc, ?_⟩
      simp only [Bool.not_eq_true'] at hin ⊢
      simpa using hin
  exact updateChildrenLoaded_of_loaded _ pp children hnd1 hstepA hstepB

/-- Store and children for the C5 and C9 witnesses: a selected, loaded
parent directory and two fresh children as the lazy loader delivers
them. -/
def witMergeModel : Model :=
  baseModel
    [mkItem "/w/d".toList "d".toList true true 0 true false false,
     mkItem "/w/x.txt".toList "x.txt".toList false false 0
       false false false]
    "/w".toList none

/-- The delivered child list used by the merge witnesses. -/
def witMergeChildren : List FileItem :=
  [mkItem "/w/d/a".toList "a".toList false false 1 false false false,
   mkItem "/w/d/b".toList "b".toList false false 1 false false false]

/-- C5, witness: merging the same child list twice into the concrete
store, with every hypothesis discharged by evaluation. -/
theorem mergeChildren_idempotent_witness :
    ((witMergeModel.items.map FileItem.Path).Nodup ∧
     (witMergeChildren.map FileItem.Path).Nodup ∧
     mkItem "/w/d".toList "d".toList true true 0 true false false ∈
       witMergeModel.items) ∧
    ((updateChildrenLoaded (updateChildrenLoaded witMergeModel
        "/w/d".toList witMergeChildren) "/w/d".toList
        witMergeChildren).items =
      (updateChildrenLoaded witMergeModel "/w/d".toList
        witMergeChildren).items ∧
     (∀ d ∈ (updateChildrenLoaded witMergeModel "/w/d".toList
        witMergeChildren).items, d.Path = "/w/d".toList →
        d.ChildrenLoaded = true) ∧
     (((updateChildrenLoaded witMergeModel "/w/d".toList
        witMergeChildren).items.map FileItem.Path).Nodup)) :=
  ⟨⟨by decide, by decide, by decide⟩,
    mergeChildren_idempotent witMergeModel "/w/d".toList witMergeChildren
      (by decide) (by decide)
      (mkItem "/w/d".toList "d".toList true true 0 true false false)
      (by decide) (by decide)⟩

/-- C9.  Delivering a lazy-load result for a directory that is already
selected does not retroactively select the merged children: every
pre-existing entry keeps its selected bit (the handler only flips the
childrenLoaded mark and appends), and every entry appearing with a
fresh path after the merge carries selected = false, because the loader
constructs children unselected. -/
theorem merge_no_retroactive_selection (m : Model) (pp : GoStr)
    (children : List FileItem)
    (hnd : (m.items.map FileItem.Path).Nodup)
    (hcnd : (children.map FileItem.Path).Nodup)
    (hsel : ∀ c ∈ children, c.Selected = false)
    (d₀ : FileItem) (hd₀ : d₀ ∈ m.items) (hd₀p : d₀.Path = pp)
    (hd₀sel : d₀.Selected = true) :
    (∀ e ∈ m.items, ∃ e',
      (updateChildrenLoaded m pp children).items.find?
        (fun it => it.Path == e.Path) = some e' ∧
      e'.Selected = e.Selected) ∧
    (∀ e' ∈ (updateChildrenLoaded m pp children).items,
      e'.Path ∉ m.items.map FileItem.Path → e'.Selected = false) := by
  obtain ⟨heq1, hnd1⟩ := updateChildrenLoaded_items_eq m pp children hnd hcnd
  have hmap1 : (updateFirst (fun it => it.Path == pp)
      (fun it => { it with ChildrenLoaded := true }) m.items).map
        FileItem.Path = m.items.map FileItem.Path :=
    updateFirst_path_map (fun it => it.Path == pp)
      (fun it => { it with ChildrenLoaded := true })
      (fun x => rfl) m.items
  constructor
  · intro e he
    have hpairs := updateFirst_pairs (fun it => it.Path == pp)
      (fun it => { it with ChildrenLoaded := true })
      (fun x => ⟨rfl, rfl⟩) m.items
    have hme := find?_path_self hnd he
    rcases find?_transport (fun it => it.Path == e.Path)
        (fun a b hab => by
          show (b.Path == e.Path) = (a.Path == e.Path)
          rw [hab.1]) hpairs with ⟨h1, _⟩ | ⟨a, b, hab, h1, h2⟩
    · rw [hme] at h1
      exact absurd h1 (by simp)
    · rw [hme] at h1
      have hae : a = e := (Option.some.inj h1).symm
      refine ⟨b, ?_, by rw [hab.2, hae]⟩
      rw [heq1, List.find?_append, h2]
      rfl
  · intro e' he' hnotin
    rw [heq1] at he'
    rcases List.mem_append.mp he' with h1 | h2
    · exfalso
      apply hnotin
      have hm : e'.Path ∈ (updateFirst (fun it => it.Path == pp)
          (fun it => { it with ChildrenLoaded := true }) m.items).map
            FileItem.Path := List.mem_map_of_mem _ h1
      rw [hmap1] at hm
      exact hm
    · exact hsel e' (List.mem_filter.mp h2).1

/-- C9, witness: merging fresh unselected children under the concrete
already-selected directory. -/
theorem merge_no_retroactive_selection_witness :
    ((witMergeModel.items.map FileItem.Path).Nodup ∧
     (witMergeChildren.map FileItem.Path).Nodup ∧
     (∀ c ∈ witMergeChildren, c.Selected = false) ∧
     (mkItem "/w/d".toList "d".toList true true 0 true false false ∈
        witMergeModel.items) ∧
     (mkItem "/w/d".toList "d".toList true true 0
        true false false).Selected = true) ∧
    ((∀ e ∈ witMergeModel.items, ∃ e',
        (updateChildrenLoaded witMergeModel "/w/d".toList
          witMergeChildren).items.find?
          (fun it => it.Path == e.Path) = some e' ∧
        e'.Selected = e.Selected) ∧
     (∀ e' ∈ (updateChildrenLoaded witMergeModel "/w/d".toList
        witMergeChildren).items,
        e'.Path ∉ witMergeModel.items.map FileItem.Path →
        e'.Selected = false)) :=
  ⟨⟨by decide, by decide, by decide, by decide, by decide⟩,
    merge_no_retroactive_selection witMergeModel "/w/d".toList
      witMergeChildren (by decide) (by decide) (by decide)
      (mkItem "/w/d".toList "d".toList true true 0 true false false)
      (by decide) (by decide) (by decide)⟩

/-- The ancestor paths the visibility loop inspects, strictly between a
path and the working directory, in lockstep with visLoop. -/
def visChain (cwd : GoStr) : GoStr → Nat → List GoStr
  | _, 0 => []
  | p, fuel + 1 =>
    if p = cwd ∨ p = ['.'] then [] else p :: visChain cwd (dirOf p) fuel

/-- The visibility loop succeeds exactly when every inspected ancestor
is present as an expanded directory entry, paths being unique. -/
theorem visLoop_spec (m : Model)
    (hnd : (m.items.map FileItem.Path).Nodup) :
    ∀ (fuel : Nat) (p : GoStr),
      (visLoop m p fuel = true ↔
        ∀ q ∈ visChain m.cwd p fuel, ∃ d ∈ m.items,
          d.Path = q ∧ d.IsDir = true ∧ d.Expanded = true) := by
  intro fuel
  induction fuel with
  | zero =>
    intro p
    simp [visLoop, visChain]
  | succ n ih =>
    intro p
    by_cases hstop : p = m.cwd ∨ p = ['.']
    · simp [visLoop, visChain, hstop]
    · rw [show visLoop m p (n + 1) =
          (match m.items.find? (fun it => it.Path == p && it.IsDir) with
           | none => false
           | some it => if !it.Expanded then false
              else visLoop m (dirOf p) n) from by
            conv_lhs => rw [visLoop]
            rw [if_neg hstop]]
      rw [show visChain m.cwd p (n + 1) =
          p :: visChain m.cwd (dirOf p) n from by
            conv_lhs => rw [visChain]
            rw [if_neg hstop]]
      cases hf : m.items.find? (fun it => it.Path == p && it.IsDir) with
      | none =>
        simp only [Bool.false_eq_true, false_iff]
        intro hall
        obtain ⟨d, hd, hdp, hddir, _⟩ := hall p (List.mem_cons_self _ _)
        have := List.find?_eq_none.mp hf d hd
        simp [hdp, hddir] at this
      | some it =>
        have hit : (it.Path == p && it.IsDir) = true := by
          have h := List.find?_some
            (p := fun (x : FileItem) => x.Path == p && x.IsDir) hf
          simpa using h
        have hitp : it.Path = p := by
          have := (Bool.and_eq_true_iff.mp hit).1
          simpa using this
        have hitdir : it.IsDir = true := (Bool.and_eq_true_iff.mp hit).2
        have hitmem : it ∈ m.items := List.mem_of_find?_eq_some hf
        by_cases hexp : it.Expanded = true
        · simp only [hexp, Bool.not_true, Bool.false_eq_true, if_false]
          rw [ih (dirOf p)]
          constructor
          · intro hall q hq
            rcases List.mem_cons.mp hq with rfl | hq
            · exact ⟨it, hitmem, hitp, hitdir, hexp⟩
            · exact hall q hq
          · intro hall q hq
            exact hall q (List.mem_cons_of_mem _ hq)
        · have hexp' : it.Expanded = false := by simpa using hexp
          simp only [hexp', Bool.not_false, if_true, Bool.false_eq_true,
            false_iff]
          intro hall
          obtain ⟨d, hd, hdp, hddir, hdexp⟩ := hall p (List.mem_cons_self _ _)
          have hdit : d = it :=
            List.inj_on_of_nodup_map hnd hd hitmem (by rw [hdp, hitp])
          rw [hdit] at hdexp
          rw [hdexp] at hexp'
          simp at hexp'

/-- C4.  The refreshed visible projection contains exactly the store
entries all of whose ancestors strictly between them and the root are
present as expanded directory entries, entries at depth zero being
always included. -/
theorem projection_visibility (m : Model)
    (hnd : (m.items.map FileItem.Path).Nodup) :
    ∀ e : FileItem,
      (e ∈ (refreshVisibleItems m).listItems ↔
        e ∈ m.items ∧ (e.Depth = 0 ∨
          ∀ q ∈ visChain m.cwd (dirOf e.Path) e.Path.length,
            ∃ d ∈ m.items, d.Path = q ∧ d.IsDir = true ∧
              d.Expanded = true)) := by
  intro e
  rw [refresh_listItems_eq m hnd]
  rw [List.mem_filter]
  constructor
  · rintro ⟨he, hvis⟩
    refine ⟨he, ?_⟩
    unfold isVisible at hvis
    by_cases hdep : e.Depth = 0
    · exact Or.inl hdep
    · rw [if_neg hdep] at hvis
      exact Or.inr ((visLoop_spec m hnd e.Path.length (dirOf e.Path)).mp hvis)
  · rintro ⟨he, hcond⟩
    refine ⟨he, ?_⟩
    unfold isVisible
    by_cases hdep : e.Depth = 0
    · rw [if_pos hdep]
    · rw [if_neg hdep]
      rcases hcond with hcond | hcond
      · exact absurd hcond hdep
      · exact (visLoop_spec m hnd e.Path.length (dirOf e.Path)).mpr hcond

/-- Store for the C4 witness: an expanded directory with a child, a
collapsed directory with a loaded child, and a root-level file. -/
def witC4Model : Model :=
  baseModel
    [mkItem "/w/open".toList "open".toList true false 0 true false true,
     mkItem "/w/open/a.txt".toList "a.txt".toList false false 1
       false false false,
     mkItem "/w/shut".toList "shut".toList true false 0 false false true,
     mkItem "/w/shut/b.txt".toList "b.txt".toList false false 1
       false false false,
     mkItem "/w/top.md".toList "top.md".toList false false 0
       false false false]
    "/w".toList none

/-- C4, witness: the projection characterization applied to the
concrete mixed store. -/
theorem projection_visibility_witness :
    (witC4Model.items.map FileItem.Path).Nodup ∧
    (∀ e : FileItem,
      (e ∈ (refreshVisibleItems witC4Model).listItems ↔
        e ∈ witC4Model.items ∧ (e.Depth = 0 ∨
          ∀ q ∈ visChain witC4Model.cwd (dirOf e.Path) e.Path.length,
            ∃ d ∈ witC4Model.items, d.Path = q ∧ d.IsDir = true ∧
              d.Expanded = true))) :=
  ⟨by decide, projection_visibility witC4Model (by decide)⟩

/-- The bytewise string order is irreflexive. -/
theorem strLt_irrefl : ∀ s : GoStr, strLt s s = false
  | [] => rfl
  | c :: cs => by simp [strLt, strLt_irrefl cs]

/-- The bytewise string order is transitive. -/
theorem strLt_trans : ∀ (a b c : GoStr), strLt a b = true →
    strLt b c = true → strLt a c = true
  | [], [], _, hab, _ => by simp [strLt] at hab
  | [], _ :: _, [], _, hbc => by simp [strLt] at hbc
  | [], _ :: _, _ :: _, _, _ => by simp [strLt]
  | _ :: _, [], _, hab, _ => by simp [strLt] at hab
  | _ :: _, _ :: _, [], _, hbc => by simp [strLt] at hbc
  | x :: xs, y :: ys, z :: zs, hab, hbc => by
    simp only [strLt] at hab hbc ⊢
    by_cases hxy : x = y
    · subst hxy
      rw [if_pos rfl] at hab
      by_cases hxz : x = z
      · subst hxz
        rw [if_pos rfl] at hbc ⊢
        exact strLt_trans xs ys zs hab hbc
      · rw [if_neg hxz] at hbc ⊢
        exact hbc
    · rw [if_neg hxy] at hab
      have hxy' : x < y := of_decide_eq_true hab
      by_cases hyz : y = z
      · subst hyz
        rw [if_neg hxy]
        exact decide_eq_true hxy'
      · rw [if_neg hyz] at hbc
        have hyz' : y < z := of_decide_eq_true hbc
        have hxz' : x < z := lt_trans hxy' hyz'
        have hxz : ¬ x = z := by
          intro h
          subst h
          exact absurd hxz' (lt_irrefl x)
        rw [if_neg hxz]
        exact decide_eq_true hxz'

/-- The bytewise string order is trichotomous. -/
theorem strLt_total : ∀ (a b : GoStr),
    strLt a b = true ∨ a = b ∨ strLt b a = true
  | [], [] => Or.inr (Or.inl rfl)
  | [], _ :: _ => Or.inl (by simp [strLt])
  | _ :: _, [] => Or.inr (Or.inr (by simp [strLt]))
  | x :: xs, y :: ys => by
    by_cases hxy : x = y
    · subst hxy
      rcases strLt_total xs ys with h | h | h
      · exact Or.inl (by simp [strLt, h])
      · exact Or.inr (Or.inl (by rw [h]))
      · exact Or.inr (Or.inr (by simp [strLt, h]))
    · rcases lt_trichotomy x y with h | h | h
      · exact Or.inl (by simp [strLt, hxy, h])
      · exact absurd h hxy
      · refine Or.inr (Or.inr ?_)
        have hyx : ¬ y = x := fun hh => hxy hh.symm
        simp [strLt, hyx, h]

/-- Transitivity of the sort predicate passed by the source to sort.Slice,
as required by mergeSort. -/
theorem sortLe_trans (a b c : FileItem)
    (hab : (!strLt b.Path a.Path) = true)
    (hbc : (!strLt c.Path b.Path) = true) :
    (!strLt c.Path a.Path) = true := by
  simp only [Bool.not_eq_true'] at hab hbc ⊢
  cases hca : strLt c.Path a.Path with
  | false => rfl
  | true =>
    exfalso
    rcases strLt_total b.Path c.Path with h | h | h
    · rcases strLt_total a.Path b.Path with h2 | h2 | h2
      · have := strLt_trans _ _ _ hca h2
        rw [hbc] at this
        cases this
      · rw [h2] at hca
        rw [hca] at hbc
        cases hbc
      · rw [h2] at hab
        cases hab
    · rw [← h] at hca
      rw [hca] at hab
      cases hab
    · rw [h] at hbc
      cases hbc

/-- Totality of the sort predicate passed by the source to sort.Slice, as
required by mergeSort. -/
theorem sortLe_total (a b : FileItem) :
    ((!strLt b.Path a.Path) || (!strLt a.Path b.Path)) = true := by
  cases h1 : strLt b.Path a.Path with
  | false => simp [h1]
  | true =>
    cases h2 : strLt a.Path b.Path with
    | false => simp [h2]
    | true =>
      have h := strLt_trans _ _ _ h1 h2
      rw [strLt_irrefl] at h
      cases h

/-- One-step unfolding of addParentDirs at positive fuel. -/
theorem addParentDirs_succ (path rootPath : GoStr) (results : List FileItem)
    (resultPaths : List GoStr) (allItems : List FileItem) (n : Nat) :
    addParentDirs path rootPath results resultPaths allItems (n + 1) =
      if dirOf path = rootPath ∨ dirOf path = ['.'] then
        (results, resultPaths)
      else
        let acc := addParentDirs (dirOf path) rootPath results resultPaths
          allItems n
        if acc.2.contains (dirOf path) then acc
        else
          match allItems.find?
              (fun it => it.Path == dirOf path && it.IsDir) with
          | none => acc
          | some it => (acc.1 ++ [it], acc.2 ++ [dirOf path]) := by
  conv_lhs => rw [addParentDirs]

/-- One-step unfolding of visChain at positive fuel. -/
theorem visChain_succ (cwd p : GoStr) (n : Nat) :
    visChain cwd p (n + 1) =
      if p = cwd ∨ p = ['.'] then [] else p :: visChain cwd (dirOf p) n := by
  conv_lhs => rw [visChain]

/-- addParentDirs only appends, and every appended entry is a directory
entry of the store whose path lies on the parent chain of the argument. -/
theorem addParentDirs_shape (rootPath : GoStr) (allItems : List FileItem) :
    ∀ (fuel : Nat) (path : GoStr) (results : List FileItem)
      (resultPaths : List GoStr),
      ∃ Δ : List FileItem,
        (addParentDirs path rootPath results resultPaths allItems fuel).1 =
          results ++ Δ ∧
        (addParentDirs path rootPath results resultPaths allItems fuel).2 =
          resultPaths ++ Δ.map FileItem.Path ∧
        ∀ x ∈ Δ, x ∈ allItems ∧ x.IsDir = true ∧
          x.Path ∈ visChain rootPath (dirOf path) fuel := by
  intro fuel
  induction fuel with
  | zero =>
    intro path results resultPaths
    exact ⟨[], by simp [addParentDirs], by simp [addParentDirs], by simp⟩
  | succ n ih =>
    intro path results resultPaths
    rw [addParentDirs_succ, visChain_succ]
    by_cases hstop : dirOf path = rootPath ∨ dirOf path = ['.']
    · rw [if_pos hstop, if_pos hstop]
      exact ⟨[], by simp, by simp, by simp⟩
    · rw [if_neg hstop, if_neg hstop]
      obtain ⟨Δ₁, h1, h2, h3⟩ := ih (dirOf path) results resultPaths
      dsimp only
      by_cases hc : (addParentDirs (dirOf path) rootPath results resultPaths
          allItems n).2.contains (dirOf path) = true
      · rw [if_pos hc]
        refine ⟨Δ₁, h1, h2, ?_⟩
        intro x hx
        obtain ⟨hxa, hxd, hxc⟩ := h3 x hx
        exact ⟨hxa, hxd, List.mem_cons_of_mem _ hxc⟩
      · rw [if_neg hc]
        cases hf : allItems.find?
            (fun it => it.Path == dirOf path && it.IsDir) with
        | none =>
          refine ⟨Δ₁, h1, h2, ?_⟩
          intro x hx
          obtain ⟨hxa, hxd, hxc⟩ := h3 x hx
          exact ⟨hxa, hxd, List.mem_cons_of_mem _ hxc⟩
        | some it =>
          have hit : (it.Path == dirOf path && it.IsDir) = true := by
            have h := List.find?_some
              (p := fun (x : FileItem) => x.Path == dirOf path && x.IsDir) hf
            simpa using h
          have hitp : it.Path = dirOf path := by
            have h := (Bool.and_eq_true_iff.mp hit).1
            simpa using h
          have hitdir : it.IsDir = true := (Bool.and_eq_true_iff.mp hit).2
          have hitmem : it ∈ allItems := List.mem_of_find?_eq_some hf
          refine ⟨Δ₁ ++ [it], ?_, ?_, ?_⟩
          · show (addParentDirs (dirOf path) rootPath results resultPaths
                allItems n).1 ++ [it] = results ++ (Δ₁ ++ [it])
            rw [h1, List.append_assoc]
          · show (addParentDirs (dirOf path) rootPath results resultPaths
                allItems n).2 ++ [dirOf path] =
              resultPaths ++ List.map FileItem.Path (Δ₁ ++ [it])
            rw [h2, List.map_append, List.append_assoc]
            simp [hitp]
          · intro x hx
            rcases List.mem_append.mp hx with hx | hx
            · obtain ⟨hxa, hxd, hxc⟩ := h3 x hx
              exact ⟨hxa, hxd, List.mem_cons_of_mem _ hxc⟩
            · have hxe : x = it := by simpa using hx
              subst hxe
              refine ⟨hitmem, hitdir, ?_⟩
              rw [hitp]
              exact List.mem_cons_self _ _

/-- Every parent-chain path with a directory entry in the store ends up in
the result-path set of addParentDirs. -/
theorem addParentDirs_complete (rootPath : GoStr) (allItems : List FileItem) :
    ∀ (fuel : Nat) (path : GoStr) (results : List FileItem)
      (resultPaths : List GoStr) (q : GoStr),
      q ∈ visChain rootPath (dirOf path) fuel →
      (∃ d ∈ allItems, d.Path = q ∧ d.IsDir = true) →
      q ∈ (addParentDirs path rootPath results resultPaths allItems fuel).2 := by
  intro fuel
  induction fuel with
  | zero =>
    intro path results resultPaths q hq hd
    simp [visChain] at hq
  | succ n ih =>
    intro path results resultPaths q hq hd
    rw [visChain_succ] at hq
    rw [addParentDirs_succ]
    by_cases hstop : dirOf path = rootPath ∨ dirOf path = ['.']
    · rw [if_pos hstop] at hq
      simp at hq
    · rw [if_neg hstop] at hq
      rw [if_neg hstop]
      dsimp only
      rcases List.mem_cons.mp hq with rfl | hq'
      · by_cases hc : (addParentDirs (dirOf path) rootPath results resultPaths
            allItems n).2.contains (dirOf path) = true
        · rw [if_pos hc]
          rcases (List.contains_iff_exists_mem_beq).mp hc with ⟨a, ha, hba⟩
          have hqa : dirOf path = a := by simpa using hba
          rw [← hqa] at ha
          exact ha
        · rw [if_neg hc]
          cases hf : allItems.find?
              (fun it => it.Path == dirOf path && it.IsDir) with
          | none =>
            exfalso
            obtain ⟨d, hdmem, hdp, hddir⟩ := hd
            have h := List.find?_eq_none.mp hf d hdmem
            rw [hdp] at h
            simp [hddir] at h
          | some it =>
            exact List.mem_append_right _ (List.mem_singleton.mpr rfl)
      · have hq2 := ih (dirOf path) results resultPaths q hq' hd
        by_cases hc : (addParentDirs (dirOf path) rootPath results resultPaths
            allItems n).2.contains (dirOf path) = true
        · rw [if_pos hc]
          exact hq2
        · rw [if_neg hc]
          cases hf : allItems.find?
              (fun it => it.Path == dirOf path && it.IsDir) with
          | none => exact hq2
          | some it => exact List.mem_append_left _ hq2

/-- The loop body of the exact-match accumulation of executeCustomSearch:
skip an exact match whose path was already collected, otherwise append it
and its ancestor directories. -/
def exactStep (cwd : GoStr) (allItems : List FileItem)
    (acc : List FileItem × List GoStr) (item : FileItem) :
    List FileItem × List GoStr :=
  if acc.2.contains item.Path then acc
  else addParentDirs item.Path cwd (acc.1 ++ [item])
    (acc.2 ++ [item.Path]) allItems item.Path.length

/-- Invariant induction over the exact-match accumulation loop of
executeCustomSearch: under unique paths, the loop only appends; its output
holds exactly the processed exact matches together with on-chain ancestor
directories of exact matches; every processed exact match lands in the
output; and the output is ancestor-closed for the files it holds. -/
theorem exactFold_post (cwd ql : GoStr) (allItems : List FileItem)
    (hnd : (allItems.map FileItem.Path).Nodup) :
    ∀ (fl : List FileItem) (acc : List FileItem × List GoStr),
      (∀ f ∈ fl, f ∈ allItems ∧ f.IsDir = false ∧ strToLower f.Name = ql) →
      (∀ x ∈ acc.1, x ∈ allItems ∧
        ((x.IsDir = false ∧ strToLower x.Name = ql) ∨
         (x.IsDir = true ∧ ∃ g ∈ allItems, g.IsDir = false ∧
           strToLower g.Name = ql ∧
           x.Path ∈ visChain cwd (dirOf g.Path) g.Path.length))) →
      (∀ q ∈ acc.2, ∃ x ∈ acc.1, x.Path = q) →
      (∀ x ∈ acc.1, x.IsDir = false →
        ∀ q ∈ visChain cwd (dirOf x.Path) x.Path.length,
          ∀ d ∈ allItems, d.Path = q → d.IsDir = true → d ∈ acc.1) →
      (∀ x ∈ (fl.foldl (exactStep cwd allItems) acc).1, x ∈ allItems ∧
        ((x.IsDir = false ∧ strToLower x.Name = ql) ∨
         (x.IsDir = true ∧ ∃ g ∈ allItems, g.IsDir = false ∧
           strToLower g.Name = ql ∧
           x.Path ∈ visChain cwd (dirOf g.Path) g.Path.length))) ∧
      (∀ x ∈ (fl.foldl (exactStep cwd allItems) acc).1, x.IsDir = false →
        ∀ q ∈ visChain cwd (dirOf x.Path) x.Path.length,
          ∀ d ∈ allItems, d.Path = q → d.IsDir = true →
            d ∈ (fl.foldl (exactStep cwd allItems) acc).1) ∧
      (∀ f ∈ fl, f ∈ (fl.foldl (exactStep cwd allItems) acc).1) ∧
      (∀ x ∈ acc.1, x ∈ (fl.foldl (exactStep cwd allItems) acc).1) := by
  intro fl
  induction fl with
  | nil =>
    intro acc hfl ha hb he
    exact ⟨ha, he, by simp, fun x hx => hx⟩
  | cons f fl ih =>
    intro acc hfl ha hb he
    have hf := hfl f (List.mem_cons_self _ _)
    have hfl' : ∀ g ∈ fl, g ∈ allItems ∧ g.IsDir = false ∧
        strToLower g.Name = ql :=
      fun g hg => hfl g (List.mem_cons_of_mem _ hg)
    rw [List.foldl_cons]
    by_cases hc : acc.2.contains f.Path = true
    · have hstep : exactStep cwd allItems acc f = acc := by
        unfold exactStep
        rw [if_pos hc]
      rw [hstep]
      have hfmem : f ∈ acc.1 := by
        rcases (List.contains_iff_exists_mem_beq).mp hc with ⟨a, haq, hba⟩
        have hfa : f.Path = a := by simpa using hba
        obtain ⟨x, hx1, hx2⟩ := hb a haq
        have hxall : x ∈ allItems := (ha x hx1).1
        have hxf : x = f := by
          apply List.inj_on_of_nodup_map hnd hxall hf.1
          rw [hx2, hfa]
        rw [← hxf]
        exact hx1
      obtain ⟨c1, c2, c3, c4⟩ := ih acc hfl' ha hb he
      refine ⟨c1, c2, ?_, c4⟩
      intro g hg
      rcases List.mem_cons.mp hg with rfl | hg'
      · exact c4 g hfmem
      · exact c3 g hg'
    · have hstep : exactStep cwd allItems acc f =
          addParentDirs f.Path cwd (acc.1 ++ [f]) (acc.2 ++ [f.Path])
            allItems f.Path.length := by
        unfold exactStep
        rw [if_neg hc]
      rw [hstep]
      obtain ⟨Δ, hΔ1, hΔ2, hΔ3⟩ := addParentDirs_shape cwd allItems
        f.Path.length f.Path (acc.1 ++ [f]) (acc.2 ++ [f.Path])
      have ha' : ∀ x ∈ (addParentDirs f.Path cwd (acc.1 ++ [f])
          (acc.2 ++ [f.Path]) allItems f.Path.length).1, x ∈ allItems ∧
          ((x.IsDir = false ∧ strToLower x.Name = ql) ∨
           (x.IsDir = true ∧ ∃ g ∈ allItems, g.IsDir = false ∧
             strToLower g.Name = ql ∧
             x.Path ∈ visChain cwd (dirOf g.Path) g.Path.length)) := by
        intro x hx
        rw [hΔ1] at hx
        rcases List.mem_append.mp hx with hx | hx
        · rcases List.mem_append.mp hx with hx | hx
          · exact ha x hx
          · have hxe : x = f := by simpa using hx
            subst hxe
            exact ⟨hf.1, Or.inl ⟨hf.2.1, hf.2.2⟩⟩
        · obtain ⟨hxa, hxd, hxc⟩ := hΔ3 x hx
          exact ⟨hxa, Or.inr ⟨hxd, f, hf.1, hf.2.1, hf.2.2, hxc⟩⟩
      have hb' : ∀ q ∈ (addParentDirs f.Path cwd (acc.1 ++ [f])
          (acc.2 ++ [f.Path]) allItems f.Path.length).2,
          ∃ x ∈ (addParentDirs f.Path cwd (acc.1 ++ [f])
            (acc.2 ++ [f.Path]) allItems f.Path.length).1, x.Path = q := by
        intro q hq
        rw [hΔ2] at hq
        rw [hΔ1]
        rcases List.mem_append.mp hq with hq | hq
        · rcases List.mem_append.mp hq with hq | hq
          · obtain ⟨x, hx1, hx2⟩ := hb q hq
            exact ⟨x, by simp [hx1], hx2⟩
          · have hqf : q = f.Path := by simpa using hq
            exact ⟨f, by simp, hqf.symm⟩
        · rw [List.mem_map] at hq
          obtain ⟨x, hx1, hx2⟩ := hq
          exact ⟨x, by simp [hx1], hx2⟩
      have hmem_of_path : ∀ q ∈ (addParentDirs f.Path cwd (acc.1 ++ [f])
          (acc.2 ++ [f.Path]) allItems f.Path.length).2,
          ∀ d ∈ allItems, d.Path = q →
          d ∈ (addParentDirs f.Path cwd (acc.1 ++ [f])
            (acc.2 ++ [f.Path]) allItems f.Path.length).1 := by
        intro q hq d hdmem hdp
        obtain ⟨x, hx1, hx2⟩ := hb' q hq
        have hxd : x = d := by
          apply List.inj_on_of_nodup_map hnd (ha' x hx1).1 hdmem
          rw [hx2, hdp]
        rw [← hxd]
        exact hx1
      have he' : ∀ x ∈ (addParentDirs f.Path cwd (acc.1 ++ [f])
          (acc.2 ++ [f.Path]) allItems f.Path.length).1, x.IsDir = false →
          ∀ q ∈ visChain cwd (dirOf x.Path) x.Path.length,
            ∀ d ∈ allItems, d.Path = q → d.IsDir = true →
            d ∈ (addParentDirs f.Path cwd (acc.1 ++ [f])
              (acc.2 ++ [f.Path]) allItems f.Path.length).1 := by
        intro x hx hxdir q hq d hdmem hdp hddir
        rw [hΔ1] at hx
        rcases List.mem_append.mp hx with hx | hx
        · rcases List.mem_append.mp hx with hx | hx
          · have hd := he x hx hxdir q hq d hdmem hdp hddir
            rw [hΔ1]
            exact List.mem_append_left _ (List.mem_append_left _ hd)
          · have hxf : x = f := by simpa using hx
            subst hxf
            have hq2 : q ∈ (addParentDirs x.Path cwd (acc.1 ++ [x])
                (acc.2 ++ [x.Path]) allItems x.Path.length).2 :=
              addParentDirs_complete cwd allItems x.Path.length x.Path
                (acc.1 ++ [x]) (acc.2 ++ [x.Path]) q hq ⟨d, hdmem, hdp, hddir⟩
            exact hmem_of_path q hq2 d hdmem hdp
        · obtain ⟨_, hxd, _⟩ := hΔ3 x hx
          rw [hxd] at hxdir
          cases hxdir
      obtain ⟨c1, c2, c3, c4⟩ := ih _ hfl' ha' hb' he'
      refine ⟨c1, c2, ?_, ?_⟩
      · intro g hg
        rcases List.mem_cons.mp hg with rfl | hg'
        · apply c4
          rw [hΔ1]
          exact List.mem_append_left _ (List.mem_append_right _ (by simp))
        · exact c3 g hg'
      · intro x hx
        apply c4
        rw [hΔ1]
        exact List.mem_append_left _ (List.mem_append_left _ hx)

/-- C8 (amended: the exact pass fires only when a non-directory entry
matches exactly).  When some non-directory entry of the store has a name
equal to the query case-insensitively, the published result list holds
exactly the non-directory exact matches together with the store directory
entries lying on the parent chain of some exact match, sorted by path; in
particular no entry whose name merely contains the query appears, the
substring pass being skipped. -/
theorem exact_search_characterization (fs : FS) (m : Model) (query : GoStr)
    (hq : query ≠ [])
    (hnd : (m.items.map FileItem.Path).Nodup)
    (hex : ∃ f ∈ m.items, f.IsDir = false ∧
      strToLower f.Name = strToLower query) :
    (∀ it : FileItem,
      it ∈ (executeCustomSearch fs m query).listItems ↔
        (it ∈ m.items.map (fun x => { x with MatchesContent := false }) ∧
         ((it.IsDir = false ∧ strToLower it.Name = strToLower query) ∨
          (it.IsDir = true ∧
           ∃ g ∈ m.items.map (fun x => { x with MatchesContent := false }),
             g.IsDir = false ∧ strToLower g.Name = strToLower query ∧
             it.Path ∈ visChain m.cwd (dirOf g.Path) g.Path.length)))) ∧
    (executeCustomSearch fs m query).listItems.Pairwise
      (fun a b => strLt b.Path a.Path = false) := by
  set items0 := m.items.map (fun x => { x with MatchesContent := false })
    with hitems0
  set ql := strToLower query with hql
  set fl := items0.filter (fun it => !it.IsDir && strToLower it.Name == ql)
    with hfldef
  set res := (fl.foldl (exactStep m.cwd items0) ([], [])).1 with hresdef
  set srt := res.mergeSort (fun a b => !strLt b.Path a.Path) with hsrtdef
  have hnd0 : (items0.map FileItem.Path).Nodup := by
    have hmm : items0.map FileItem.Path = m.items.map FileItem.Path := by
      rw [hitems0, List.map_map]
      rfl
    rw [hmm]
    exact hnd
  have hflmem : ∀ x : FileItem, x ∈ fl ↔
      (x ∈ items0 ∧ x.IsDir = false ∧ strToLower x.Name = ql) := by
    intro x
    rw [hfldef, List.mem_filter]
    constructor
    · rintro ⟨h1, h2⟩
      rw [Bool.and_eq_true_iff] at h2
      exact ⟨h1, by simpa using h2.1, by simpa using h2.2⟩
    · rintro ⟨h1, h2, h3⟩
      refine ⟨h1, ?_⟩
      simp [h2, h3]
  have hlen : 0 < fl.length := by
    obtain ⟨f, hfm, hfd, hfn⟩ := hex
    have hf0 : ({ f with MatchesContent := false } : FileItem) ∈ items0 := by
      rw [hitems0]
      exact List.mem_map_of_mem _ hfm
    have hff : ({ f with MatchesContent := false } : FileItem) ∈ fl :=
      (hflmem _).mpr ⟨hf0, hfd, hfn⟩
    exact List.length_pos.mpr (List.ne_nil_of_mem hff)
  have hform : executeCustomSearch fs m query = { m with
      isInSearchResults := true,
      items := items0,
      listItems := srt } := by
    unfold executeCustomSearch
    rw [if_neg hq]
    dsimp only
    rw [if_pos hlen]
    rfl
  rw [hform]
  dsimp only
  obtain ⟨c1, c2, c3, c4⟩ := exactFold_post m.cwd ql items0 hnd0 fl ([], [])
    (fun f hf => (hflmem f).mp hf)
    (by intro x hx; simp at hx)
    (by intro q hq; simp at hq)
    (by intro x hx; simp at hx)
  constructor
  · intro it
    rw [hsrtdef, List.mem_mergeSort]
    constructor
    · intro hit
      exact c1 it hit
    · rintro ⟨hmem, hshape⟩
      rcases hshape with ⟨hdir, hname⟩ | ⟨hdir, g, hg, hgdir, hgname, hchain⟩
      · exact c3 it ((hflmem it).mpr ⟨hmem, hdir, hname⟩)
      · have hgres := c3 g ((hflmem g).mpr ⟨hg, hgdir, hgname⟩)
        exact c2 g hgres hgdir it.Path hchain it hmem rfl hdir
  · rw [hsrtdef]
    have hs := @List.sorted_mergeSort FileItem
      (fun a b => !strLt b.Path a.Path) sortLe_trans sortLe_total res
    exact hs.imp (fun hab => by simpa using hab)

/-- The file-system collaborator with every probe failing, for fixtures
whose scenario does no file-system access. -/
def fsEmpty : FS :=
  { statSize := fun _ => none, readFile := fun _ => none,
    listDir := fun _ => none }

/-- Store for the C8 counterexample: a directory whose name matches the
query exactly and a file whose name merely contains it. -/
def cexC8Model : Model :=
  baseModel
    [mkItem "/w/docs".toList "docs".toList true false 0 false false false,
     mkItem "/w/docsy".toList "docsy".toList false false 0 false false false]
    "/w".toList none

/-- C8, counterexample to the claim as stated: an entry (the directory
docs) has a name equal to the query, yet the search returns exactly the
substring-only file docsy and not the exact-named directory, because the
exact pass of the source only considers non-directory entries. -/
theorem exact_search_counterexample :
    (∃ d ∈ cexC8Model.items, strToLower d.Name = strToLower "docs".toList) ∧
    (executeCustomSearch fsEmpty cexC8Model "docs".toList).listItems.map
      FileItem.Path = ["/w/docsy".toList] ∧
    (∀ it ∈ (executeCustomSearch fsEmpty cexC8Model "docs".toList).listItems,
      ¬ strToLower it.Name = strToLower "docs".toList) := by
  have hE : (executeCustomSearch fsEmpty cexC8Model "docs".toList).listItems
      = [mkItem "/w/docsy".toList "docsy".toList false false 0
          false false false].mergeSort (fun a b => !strLt b.Path a.Path) :=
    rfl
  have hsing : [mkItem "/w/docsy".toList "docsy".toList false false 0
      false false false].mergeSort (fun a b => !strLt b.Path a.Path)
      = [mkItem "/w/docsy".toList "docsy".toList false false 0
          false false false] :=
    List.perm_singleton.mp (List.mergeSort_perm _ _)
  rw [hE, hsing]
  decide

/-- Store for the C8 witness: an exact match and a substring-only match
inside a subdirectory. -/
def witC8Model : Model :=
  baseModel
    [mkItem "/w/sub".toList "sub".toList true false 0 false false false,
     mkItem "/w/sub/main.go".toList "main.go".toList false false 1
       false false false,
     mkItem "/w/sub/main.go.bak".toList "main.go.bak".toList false false 1
       false false false]
    "/w".toList none

/-- C8, witness: the amended exact-pass characterization applied to a
concrete store holding main.go and main.go.bak. -/
theorem exact_search_witness :
    ("main.go".toList ≠ ([] : GoStr) ∧
     (witC8Model.items.map FileItem.Path).Nodup ∧
     (∃ f ∈ witC8Model.items, f.IsDir = false ∧
        strToLower f.Name = strToLower "main.go".toList)) ∧
    ((∀ it : FileItem,
      it ∈ (executeCustomSearch fsEmpty witC8Model
          "main.go".toList).listItems ↔
        (it ∈ witC8Model.items.map
            (fun x => { x with MatchesContent := false }) ∧
         ((it.IsDir = false ∧
            strToLower it.Name = strToLower "main.go".toList) ∨
          (it.IsDir = true ∧
           ∃ g ∈ witC8Model.items.map
              (fun x => { x with MatchesContent := false }),
             g.IsDir = false ∧
             strToLower g.Name = strToLower "main.go".toList ∧
             it.Path ∈ visChain witC8Model.cwd (dirOf g.Path)
               g.Path.length)))) ∧
     (executeCustomSearch fsEmpty witC8Model
        "main.go".toList).listItems.Pairwise
       (fun a b => strLt b.Path a.Path = false)) :=
  ⟨⟨by decide, by decide, by decide⟩,
   exact_search_characterization fsEmpty witC8Model "main.go".toList
     (by decide) (by decide) (by decide)⟩

/-- The filename-containment test of the search passes. -/
def nameMatch (ql : GoStr) (it : FileItem) : Bool :=
  strContains (strToLower it.Name) ql

/-- The stat-bounded content probe of the first pass of performSearch,
factored out of performSearchStep: a file not already matched by name, in
content mode, whose stat size is below the ceiling and whose bytes
contain the query case-insensitively. -/
def contentHit (fs : FS) (contentMode : Bool) (ql : GoStr)
    (it : FileItem) : Bool :=
  if !(strContains (strToLower it.Name) ql) && contentMode && !it.IsDir then
    match fs.statSize it.Path with
    | some size =>
      if size < searchCeiling then
        match fs.readFile it.Path with
        | some content => strContains (strToLower content) ql
        | none => false
      else false
    | none => false
  else false

/-- Two items equal in every field except the expansion bookkeeping
(expanded, childrenLoaded); in particular the content flag agrees. -/
def TreeOnlyMC (a b : FileItem) : Prop :=
  b.Path = a.Path ∧ b.Name = a.Name ∧ b.IsDir = a.IsDir ∧
  b.Selected = a.Selected ∧ b.Depth = a.Depth ∧
  b.GitIgnored = a.GitIgnored ∧ b.MatchesContent = a.MatchesContent

theorem treeOnlyMC_refl (a : FileItem) : TreeOnlyMC a a :=
  ⟨rfl, rfl, rfl, rfl, rfl, rfl, rfl⟩

theorem treeOnlyMC_trans {a b c : FileItem} (h1 : TreeOnlyMC a b)
    (h2 : TreeOnlyMC b c) : TreeOnlyMC a c := by
  obtain ⟨p1, n1, d1, s1, e1, g1, m1⟩ := h1
  obtain ⟨p2, n2, d2, s2, e2, g2, m2⟩ := h2
  exact ⟨p2.trans p1, n2.trans n1, d2.trans d1, s2.trans s1,
    e2.trans e1, g2.trans g1, m2.trans m1⟩

/-- An index below the length always holds an element. -/
theorem get?_is_some {l : List FileItem} {j : Nat} (h : j < l.length) :
    ∃ b, l.get? j = some b := by
  cases hg : l.get? j with
  | none => exact absurd (List.get?_eq_none.mp hg) (Nat.not_le.mpr h)
  | some b => exact ⟨b, rfl⟩

/-- What one store-rewriting stage of the search machinery may do to the
item list: only grow it, change old positions only in expansion
bookkeeping, and append only content-unflagged entries. -/
def StageOK (old new : List FileItem) : Prop :=
  old.length ≤ new.length ∧
  (∀ j a, old.get? j = some a →
    ∃ b, new.get? j = some b ∧ TreeOnlyMC a b) ∧
  (∀ j b, old.length ≤ j → new.get? j = some b →
    b.MatchesContent = false)

theorem stageOK_refl (l : List FileItem) : StageOK l l := by
  refine ⟨le_rfl, fun j a h => ⟨a, h, treeOnlyMC_refl a⟩, ?_⟩
  intro j b hj hb
  have h := List.get?_eq_none.mpr hj
  rw [h] at hb
  cases hb

theorem stageOK_trans {l₁ l₂ l₃ : List FileItem} (h12 : StageOK l₁ l₂)
    (h23 : StageOK l₂ l₃) : StageOK l₁ l₃ := by
  obtain ⟨hl12, hp12, hs12⟩ := h12
  obtain ⟨hl23, hp23, hs23⟩ := h23
  refine ⟨le_trans hl12 hl23, ?_, ?_⟩
  · intro j a ha
    obtain ⟨b, hb, hab⟩ := hp12 j a ha
    obtain ⟨c, hc, hbc⟩ := hp23 j b hb
    exact ⟨c, hc, treeOnlyMC_trans hab hbc⟩
  · intro j c hj hc
    by_cases hj2 : j < l₂.length
    · obtain ⟨b, hb⟩ := get?_is_some hj2
      obtain ⟨c', hc', hbc⟩ := hp23 j b hb
      rw [hc'] at hc
      have hcc : c' = c := Option.some.inj hc
      rw [← hcc, hbc.2.2.2.2.2.2]
      exact hs12 j b hj hb
    · exact hs23 j c (Nat.le_of_not_lt hj2) hc

/-- updateFirst leaves the length unchanged. -/
theorem updateFirst_length (pred : FileItem → Bool) (f : FileItem → FileItem) :
    ∀ l : List FileItem, (updateFirst pred f l).length = l.length := by
  intro l
  induction l with
  | nil => rfl
  | cons x xs ih =>
    by_cases hx : pred x = true
    · simp [updateFirst, hx]
    · simp [updateFirst, hx, ih]

/-- Each position of updateFirst holds either the old element or its
image under the update. -/
theorem updateFirst_get? (pred : FileItem → Bool) (f : FileItem → FileItem) :
    ∀ (l : List FileItem) (j : Nat),
      (updateFirst pred f l).get? j = l.get? j ∨
      ∃ a, l.get? j = some a ∧ (updateFirst pred f l).get? j = some (f a) := by
  intro l
  induction l with
  | nil => intro j; exact Or.inl rfl
  | cons x xs ih =>
    intro j
    by_cases hx : pred x = true
    · cases j with
      | zero =>
        right
        exact ⟨x, rfl, by simp [updateFirst, hx]⟩
      | succ i =>
        left
        simp [updateFirst, hx]
    · cases j with
      | zero =>
        left
        simp [updateFirst, hx]
      | succ i =>
        rcases ih i with h | ⟨a, ha, hfa⟩
        · left
          simpa [updateFirst, hx] using h
        · right
          exact ⟨a, by simpa using ha, by simpa [updateFirst, hx] using hfa⟩

/-- An updateFirst whose update only touches expansion bookkeeping is a
store-stage. -/
theorem stageOK_updateFirst (pred : FileItem → Bool) (f : FileItem → FileItem)
    (hf : ∀ a, TreeOnlyMC a (f a)) (l : List FileItem) :
    StageOK l (updateFirst pred f l) := by
  refine ⟨le_of_eq (updateFirst_length pred f l).symm, ?_, ?_⟩
  · intro j a ha
    rcases updateFirst_get? pred f l j with h | ⟨a', ha', hfa⟩
    · exact ⟨a, by rw [h, ha], treeOnlyMC_refl a⟩
    · rw [ha] at ha'
      have haa : a = a' := Option.some.inj ha'
      exact ⟨f a', hfa, haa ▸ hf a'⟩
  · intro j b hj hb
    have hnone : (updateFirst pred f l).get? j = none := by
      apply List.get?_eq_none.mpr
      rw [updateFirst_length]
      exact hj
    rw [hnone] at hb
    cases hb

/-- Appending content-unflagged entries is a store-stage. -/
theorem stageOK_append (l Δ : List FileItem)
    (hΔ : ∀ x ∈ Δ, x.MatchesContent = false) : StageOK l (l ++ Δ) := by
  refine ⟨by simp, ?_, ?_⟩
  · intro j a ha
    have hj : j < l.length := (List.get?_eq_some.mp ha).1
    exact ⟨a, by rw [List.get?_append hj, ha], treeOnlyMC_refl a⟩
  · intro j b hj hb
    rw [List.get?_append_right hj] at hb
    exact hΔ b (List.get?_mem hb)

/-- Every child built by the lazy loader starts content-unflagged. -/
theorem LoadDirectoryChildren_MC (dirPath : GoStr)
    (gitRegex : Option (GoStr → Bool)) (showHidden : Bool)
    (entries : List DirEntry) :
    ∀ c ∈ LoadDirectoryChildren dirPath gitRegex showHidden entries,
      c.MatchesContent = false := by
  intro c hc
  unfold LoadDirectoryChildren at hc
  rw [List.mem_filterMap] at hc
  obtain ⟨e, _, he⟩ := hc
  by_cases hh : (!showHidden && isHiddenFile e.name) = true
  · rw [if_pos hh] at he
    cases he
  · rw [if_neg hh] at he
    have := Option.some.inj he
    rw [← this]

/-- One-step unfolding of ensureParentPathsExpanded at positive fuel. -/
theorem ensureParent_succ (fs : FS) (sh : Bool) (m : Model) (path : GoStr)
    (n : Nat) :
    ensureParentPathsExpanded fs sh m path (n + 1) =
      if dirOf path = m.cwd ∨ dirOf path = ['.'] then m
      else
        let m1 := ensureParentPathsExpanded fs sh m (dirOf path) n
        match m1.items.find? (fun it => it.Path == dirOf path && it.IsDir) with
        | none => m1
        | some it =>
          let items1 := updateFirst (fun i => i.Path == dirOf path && i.IsDir)
            (fun i => { i with Expanded := true }) m1.items
          if !it.ChildrenLoaded then
            match fs.listDir (dirOf path) with
            | none => { m1 with items := items1 }
            | some entries =>
              let children := LoadDirectoryChildren (dirOf path)
                m1.gitignoreRegexp sh entries
              let existingPaths := items1.map (fun i => i.Path)
              let items2 := items1 ++
                children.filter (fun c => !(existingPaths.contains c.Path))
              let items3 := updateFirst
                (fun i => i.Path == dirOf path && i.IsDir)
                (fun i => { i with ChildrenLoaded := true }) items2
              { m1 with items := items3 }
          else { m1 with items := items1 } := by
  conv_lhs => rw [ensureParentPathsExpanded]

/-- The synchronous ancestor expansion of the search passes only rewrites
expansion bookkeeping on existing positions, appends content-unflagged
children, and leaves every other model field unchanged. -/
theorem ensureParent_shape (fs : FS) (sh : Bool) :
    ∀ (fuel : Nat) (m : Model) (path : GoStr),
      (ensureParentPathsExpanded fs sh m path fuel = { m with
        items := (ensureParentPathsExpanded fs sh m path fuel).items }) ∧
      StageOK m.items (ensureParentPathsExpanded fs sh m path fuel).items := by
  intro fuel
  induction fuel with
  | zero =>
    intro m path
    exact ⟨rfl, stageOK_refl m.items⟩
  | succ n ih =>
    intro m path
    rw [ensureParent_succ]
    by_cases hstop : dirOf path = m.cwd ∨ dirOf path = ['.']
    · rw [if_pos hstop]
      exact ⟨rfl, stageOK_refl m.items⟩
    · rw [if_neg hstop]
      obtain ⟨hrec, hstage⟩ := ih m (dirOf path)
      dsimp only
      have hexp : ∀ a : FileItem,
          TreeOnlyMC a { a with Expanded := true } :=
        fun a => ⟨rfl, rfl, rfl, rfl, rfl, rfl, rfl⟩
      have hcl : ∀ a : FileItem,
          TreeOnlyMC a { a with ChildrenLoaded := true } :=
        fun a => ⟨rfl, rfl, rfl, rfl, rfl, rfl, rfl⟩
      cases hf : (ensureParentPathsExpanded fs sh m (dirOf path) n).items.find?
          (fun it => it.Path == dirOf path && it.IsDir) with
      | none => exact ⟨hrec, hstage⟩
      | some it =>
        dsimp only
        by_cases hcld : (!it.ChildrenLoaded) = true
        · rw [if_pos hcld]
          cases hld : fs.listDir (dirOf path) with
          | none =>
            constructor
            · rw [hrec]
            · exact stageOK_trans hstage (stageOK_updateFirst _ _ hexp _)
          | some entries =>
            constructor
            · rw [hrec]
            · refine stageOK_trans hstage (stageOK_trans
                (stageOK_updateFirst _ _ hexp _) (stageOK_trans
                  (stageOK_append _ _ ?_)
                  (stageOK_updateFirst _ _ hcl _)))
              intro x hx
              exact LoadDirectoryChildren_MC _ _ _ _ x
                (List.mem_of_mem_filter hx)
        · rw [if_neg hcld]
          constructor
          · rw [hrec]
          · exact stageOK_trans hstage (stageOK_updateFirst _ _ hexp _)

/-- The content probe only reads the name, the directory flag and the
path of its argument. -/
theorem contentHit_congr (fs : FS) (cm : Bool) (ql : GoStr)
    {a b : FileItem} (hN : b.Name = a.Name) (hD : b.IsDir = a.IsDir)
    (hP : b.Path = a.Path) :
    contentHit fs cm ql b = contentHit fs cm ql a := by
  unfold contentHit
  rw [hN, hD, hP]

/-- Characterization of one iteration of the first search pass at an
occupied index: a no-op unless the name matches or the content probe
fires; on a match the probe flag is written at the index, the ancestors
are expanded and the refreshed entry is appended to the results. -/
theorem performSearchStep_eq (fs : FS) (sh : Bool) (ql : GoStr)
    (st : SearchState) (k : Nat) (b : FileItem)
    (hgb : st.m.items.get? k = some b) :
    performSearchStep fs sh ql st k =
      if (strContains (strToLower b.Name) ql ||
          contentHit fs st.m.contentSearchMode ql b) = true then
        ⟨ensureParentPathsExpanded fs sh
            (if contentHit fs st.m.contentSearchMode ql b = true
             then { st.m with
               items := st.m.items.set k { b with MatchesContent := true } }
             else st.m) b.Path b.Path.length,
         st.results ++
           [((ensureParentPathsExpanded fs sh
              (if contentHit fs st.m.contentSearchMode ql b = true
               then { st.m with
                 items := st.m.items.set k { b with MatchesContent := true } }
               else st.m) b.Path b.Path.length).items.get? k).getD b],
         st.foundPaths ++ [b.Path]⟩
      else st := by
  unfold performSearchStep
  rw [hgb]
  dsimp only
  cases hn : strContains (strToLower b.Name) ql with
  | true =>
    have hh : contentHit fs st.m.contentSearchMode ql b = false := by
      unfold contentHit
      rw [hn]
      rfl
    rw [hh]
    rfl
  | false =>
    simp only [Bool.not_false, Bool.true_and]
    cases hcd : (st.m.contentSearchMode && !b.IsDir) with
    | false =>
      have hh : contentHit fs st.m.contentSearchMode ql b = false := by
        unfold contentHit
        rw [hn]
        simp only [Bool.not_false, Bool.true_and]
        rw [hcd]
        rfl
      rw [hh]
      rfl
    | true =>
      cases hstat : fs.statSize b.Path with
      | none =>
        have hh : contentHit fs st.m.contentSearchMode ql b = false := by
          unfold contentHit
          rw [hn]
          simp only [Bool.not_false, Bool.true_and]
          rw [hcd, hstat]
          rfl
        rw [hh]
        rfl
      | some size =>
        dsimp only
        by_cases hsz : size < searchCeiling
        · rw [if_pos hsz]
          cases hread : fs.readFile b.Path with
          | none =>
            have hh : contentHit fs st.m.contentSearchMode ql b = false := by
              unfold contentHit
              rw [hn]
              simp only [Bool.not_false, Bool.true_and]
              rw [hcd, hstat]
              dsimp only
              rw [if_pos hsz, hread]
              rfl
            rw [hh]
            rfl
          | some content =>
            dsimp only
            cases hct : strContains (strToLower content) ql with
            | false =>
              have hh : contentHit fs st.m.contentSearchMode ql b
                  = false := by
                unfold contentHit
                rw [hn]
                simp only [Bool.not_false, Bool.true_and]
                rw [hcd, hstat]
                dsimp only
                rw [if_pos hsz, hread]
                dsimp only
                rw [hct]
                rfl
              rw [hh]
              rfl
            | true =>
              have hh : contentHit fs st.m.contentSearchMode ql b
                  = true := by
                unfold contentHit
                rw [hn]
                simp only [Bool.not_false, Bool.true_and]
                rw [hcd, hstat]
                dsimp only
                rw [if_pos hsz, hread]
                dsimp only
                rw [hct]
                rfl
              rw [hh]
              rfl
        · rw [if_neg hsz]
          have hh : contentHit fs st.m.contentSearchMode ql b = false := by
            unfold contentHit
            rw [hn]
            simp only [Bool.not_false, Bool.true_and]
            rw [hcd, hstat]
            dsimp only
            rw [if_neg hsz]
            rfl
          rw [hh]
          rfl

/-- Invariant of the first pass of performSearch after processing the
first k indices of the reset store: the content-mode flag is unchanged;
the item list only grew; each original position keeps its identity
fields and carries the content flag exactly when its content probe has
already fired; appended entries are unflagged; and the results hold
exactly the files matched so far, by path. -/
def SearchInv (fs : FS) (ql : GoStr) (m' : Model) (k : Nat)
    (st : SearchState) : Prop :=
  st.m.contentSearchMode = m'.contentSearchMode ∧
  m'.items.length ≤ st.m.items.length ∧
  (∀ j a, m'.items.get? j = some a →
    ∃ b, st.m.items.get? j = some b ∧
      b.Path = a.Path ∧ b.Name = a.Name ∧ b.IsDir = a.IsDir ∧
      b.Selected = a.Selected ∧ b.Depth = a.Depth ∧
      b.GitIgnored = a.GitIgnored ∧
      (b.MatchesContent = true ↔
        (j < k ∧ contentHit fs m'.contentSearchMode ql a = true))) ∧
  (∀ j b, m'.items.length ≤ j → st.m.items.get? j = some b →
    b.MatchesContent = false) ∧
  (∀ p : GoStr, (∃ x ∈ st.results, x.Path = p ∧ x.IsDir = false) ↔
    (∃ j a, j < k ∧ m'.items.get? j = some a ∧ a.Path = p ∧
      a.IsDir = false ∧
      (strContains (strToLower a.Name) ql ||
        contentHit fs m'.contentSearchMode ql a) = true)) ∧
  (∀ j a, j < k → m'.items.get? j = some a →
    (strContains (strToLower a.Name) ql ||
      contentHit fs m'.contentSearchMode ql a) = true →
    st.results ≠ [])

/-- Core of the matched step: if the model handed to the ancestor
expansion differs from the current one only at the probed index, where
it carries the probe verdict, then the invariant advances. -/
theorem searchInv_step_core (fs : FS) (sh : Bool) (ql : GoStr) (m' : Model)
    (k : Nat) (st : SearchState) (a b v : FileItem) (mm : Model)
    (hga : m'.items.get? k = some a)
    (hbP : b.Path = a.Path)
    (h1 : m'.items.length ≤ st.m.items.length)
    (h2 : ∀ j a0, m'.items.get? j = some a0 →
      ∃ b0, st.m.items.get? j = some b0 ∧
        b0.Path = a0.Path ∧ b0.Name = a0.Name ∧ b0.IsDir = a0.IsDir ∧
        b0.Selected = a0.Selected ∧ b0.Depth = a0.Depth ∧
        b0.GitIgnored = a0.GitIgnored ∧
        (b0.MatchesContent = true ↔
          (j < k ∧ contentHit fs m'.contentSearchMode ql a0 = true)))
    (h3 : ∀ j b0, m'.items.length ≤ j → st.m.items.get? j = some b0 →
      b0.MatchesContent = false)
    (h4 : ∀ p : GoStr, (∃ x ∈ st.results, x.Path = p ∧ x.IsDir = false) ↔
      (∃ j a0, j < k ∧ m'.items.get? j = some a0 ∧ a0.Path = p ∧
        a0.IsDir = false ∧
        (strContains (strToLower a0.Name) ql ||
          contentHit fs m'.contentSearchMode ql a0) = true))
    (hmmcsm : mm.contentSearchMode = m'.contentSearchMode)
    (hmmlen : mm.items.length = st.m.items.length)
    (hmmne : ∀ j, j ≠ k → mm.items.get? j = st.m.items.get? j)
    (hmmk : mm.items.get? k = some v)
    (hv : v.Path = a.Path ∧ v.Name = a.Name ∧ v.IsDir = a.IsDir ∧
      v.Selected = a.Selected ∧ v.Depth = a.Depth ∧
      v.GitIgnored = a.GitIgnored ∧
      (v.MatchesContent = true ↔
        contentHit fs m'.contentSearchMode ql a = true))
    (hmt : (strContains (strToLower a.Name) ql ||
      contentHit fs m'.contentSearchMode ql a) = true) :
    SearchInv fs ql m' (k + 1)
      ⟨ensureParentPathsExpanded fs sh mm b.Path b.Path.length,
       st.results ++ [((ensureParentPathsExpanded fs sh mm b.Path
         b.Path.length).items.get? k).getD b],
       st.foundPaths ++ [b.Path]⟩ := by
  have hshape := ensureParent_shape fs sh b.Path.length mm b.Path
  have hrec := hshape.1
  obtain ⟨hsl, hsp, hss⟩ := hshape.2
  have hkb : k < st.m.items.length := by
    have h := h2 k a hga
    obtain ⟨b0, hb0, _⟩ := h
    exact (List.get?_eq_some.mp hb0).1
  have hkmm : k < mm.items.length := by
    rw [hmmlen]
    exact hkb
  obtain ⟨c, hgc, hvc⟩ := hsp k v hmmk
  obtain ⟨hcP, hcN, hcD, hcS, hcDe, hcG, hcMC⟩ := hvc
  have hm2csm : (ensureParentPathsExpanded fs sh mm b.Path
      b.Path.length).contentSearchMode = m'.contentSearchMode := by
    rw [hrec]
    exact hmmcsm
  refine ⟨hm2csm, ?_, ?_, ?_, ?_, ?_⟩
  · calc m'.items.length ≤ st.m.items.length := h1
      _ = mm.items.length := hmmlen.symm
      _ ≤ _ := hsl
  · intro j a0 hga0
    by_cases hjk : j = k
    · subst hjk
      have haa : a0 = a := by
        rw [hga] at hga0
        exact (Option.some.inj hga0).symm
      subst haa
      refine ⟨c, hgc, hcP.trans hv.1, hcN.trans hv.2.1,
        hcD.trans hv.2.2.1, hcS.trans hv.2.2.2.1,
        hcDe.trans hv.2.2.2.2.1, hcG.trans hv.2.2.2.2.2.1, ?_⟩
      rw [hcMC]
      rw [hv.2.2.2.2.2.2]
      constructor
      · intro hh
        exact ⟨Nat.lt_succ_self _, hh⟩
      · intro hh
        exact hh.2
    · obtain ⟨b0, hgb0, p0, n0, d0, s0, de0, g0, mc0⟩ := h2 j a0 hga0
      have hmmj : mm.items.get? j = some b0 := by
        rw [hmmne j hjk]
        exact hgb0
      obtain ⟨c0, hgc0, hbc0⟩ := hsp j b0 hmmj
      obtain ⟨q1, q2, q3, q4, q5, q6, q7⟩ := hbc0
      refine ⟨c0, hgc0, q1.trans p0, q2.trans n0, q3.trans d0,
        q4.trans s0, q5.trans de0, q6.trans g0, ?_⟩
      rw [q7, mc0]
      constructor
      · rintro ⟨hjlt, hh⟩
        exact ⟨Nat.lt_succ_of_lt hjlt, hh⟩
      · rintro ⟨hjlt, hh⟩
        rcases (Nat.lt_succ_iff.mp hjlt).lt_or_eq with h | h
        · exact ⟨h, hh⟩
        · exact absurd h hjk
  · intro j c0 hj hgc0
    by_cases hjlt : j < mm.items.length
    · obtain ⟨bb, hgbb⟩ := get?_is_some hjlt
      obtain ⟨c1, hgc1, hrel⟩ := hsp j bb hgbb
      rw [hgc1] at hgc0
      have hcc : c1 = c0 := Option.some.inj hgc0
      have hkm : k < m'.items.length := (List.get?_eq_some.mp hga).1
      have hjk : j ≠ k := by
        intro hh
        subst hh
        exact absurd hkm (Nat.not_lt.mpr hj)
      have hstj : st.m.items.get? j = some bb := by
        rw [← hmmne j hjk]
        exact hgbb
      rw [← hcc, hrel.2.2.2.2.2.2]
      exact h3 j bb hj hstj
    · exact hss j c0 (Nat.le_of_not_lt hjlt) hgc0
  · intro p
    rw [hgc]
    constructor
    · rintro ⟨x, hx, hxp, hxd⟩
      rcases List.mem_append.mp hx with hx | hx
      · obtain ⟨j, a0, hj, rest⟩ := (h4 p).mp ⟨x, hx, hxp, hxd⟩
        exact ⟨j, a0, Nat.lt_succ_of_lt hj, rest⟩
      · have hxc : x = c := by simpa using hx
        subst hxc
        refine ⟨k, a, Nat.lt_succ_self k, hga, ?_, ?_, hmt⟩
        · rw [← hxp, hcP, hv.1]
        · rw [← hxd, hcD, hv.2.2.1]
    · rintro ⟨j, a0, hj, hga0, hp0, hd0, hm0⟩
      rcases (Nat.lt_succ_iff.mp hj).lt_or_eq with h | h
      · obtain ⟨x, hx, hxp, hxd⟩ := (h4 p).mpr ⟨j, a0, h, hga0, hp0, hd0, hm0⟩
        exact ⟨x, List.mem_append_left _ hx, hxp, hxd⟩
      · subst h
        have haa : a0 = a := by
          rw [hga] at hga0
          exact (Option.some.inj hga0).symm
        subst haa
        refine ⟨c, List.mem_append_right _ (by simp), ?_, ?_⟩
        · rw [hcP, hv.1, hp0]
        · rw [hcD, hv.2.2.1, hd0]
  · intro j a0 hj hga0 hm0
    simp

/-- One iteration of the first pass advances the invariant. -/
theorem searchInv_step (fs : FS) (sh : Bool) (ql : GoStr) (m' : Model)
    (k : Nat) (st : SearchState) (hk : k < m'.items.length)
    (hinv : SearchInv fs ql m' k st) :
    SearchInv fs ql m' (k + 1) (performSearchStep fs sh ql st k) := by
  obtain ⟨h0, h1, h2, h3, h4, h5⟩ := hinv
  obtain ⟨a, hga⟩ := get?_is_some hk
  obtain ⟨b, hgb, hbP, hbN, hbD, hbS, hbDe, hbG, hbMC⟩ := h2 k a hga
  have hhit : contentHit fs st.m.contentSearchMode ql b =
      contentHit fs m'.contentSearchMode ql a := by
    rw [h0]
    exact contentHit_congr fs m'.contentSearchMode ql hbN hbD hbP
  have hnm : strContains (strToLower b.Name) ql =
      strContains (strToLower a.Name) ql := by rw [hbN]
  rw [performSearchStep_eq fs sh ql st k b hgb, hhit, hnm]
  cases hmt : (strContains (strToLower a.Name) ql ||
      contentHit fs m'.contentSearchMode ql a) with
  | false =>
    obtain ⟨hnF, hhF⟩ := Bool.or_eq_false_iff.mp hmt
    show SearchInv fs ql m' (k + 1) st
    refine ⟨h0, h1, ?_, h3, ?_, ?_⟩
    · intro j a0 hga0
      obtain ⟨b0, hgb0, p0, n0, d0, s0, de0, g0, mc0⟩ := h2 j a0 hga0
      refine ⟨b0, hgb0, p0, n0, d0, s0, de0, g0, ?_⟩
      rw [mc0]
      constructor
      · rintro ⟨hjlt, hh⟩
        exact ⟨Nat.lt_succ_of_lt hjlt, hh⟩
      · rintro ⟨hjlt, hh⟩
        rcases (Nat.lt_succ_iff.mp hjlt).lt_or_eq with h | h
        · exact ⟨h, hh⟩
        · subst h
          have haa : a0 = a := by
            rw [hga] at hga0
            exact (Option.some.inj hga0).symm
          subst haa
          rw [hh] at hhF
          cases hhF
    · intro p
      rw [h4 p]
      constructor
      · rintro ⟨j, a0, hj, rest⟩
        exact ⟨j, a0, Nat.lt_succ_of_lt hj, rest⟩
      · rintro ⟨j, a0, hj, hga0, hp0, hd0, hm0⟩
        rcases (Nat.lt_succ_iff.mp hj).lt_or_eq with h | h
        · exact ⟨j, a0, h, hga0, hp0, hd0, hm0⟩
        · subst h
          have haa : a0 = a := by
            rw [hga] at hga0
            exact (Option.some.inj hga0).symm
          subst haa
          rw [hm0] at hmt
          cases hmt
    · intro j a0 hj hga0 hm0
      rcases (Nat.lt_succ_iff.mp hj).lt_or_eq with h | h
      · exact h5 j a0 h hga0 hm0
      · subst h
        have haa : a0 = a := by
          rw [hga] at hga0
          exact (Option.some.inj hga0).symm
        subst haa
        rw [hm0] at hmt
        cases hmt
  | true =>
    by_cases hhA : contentHit fs m'.contentSearchMode ql a = true
    · rw [if_pos hhA]
      exact searchInv_step_core fs sh ql m' k st a b
        { b with MatchesContent := true }
        { st.m with
          items := st.m.items.set k { b with MatchesContent := true } }
        hga hbP h1 h2 h3 h4 h0 (by simp)
        (fun j hj => List.get?_set_ne _ _ hj.symm)
        (by rw [List.get?_set_eq, hgb]; rfl)
        ⟨hbP, hbN, hbD, hbS, hbDe, hbG, ⟨fun _ => hhA, fun _ => rfl⟩⟩
        hmt
    · rw [if_neg hhA]
      exact searchInv_step_core fs sh ql m' k st a b b st.m
        hga hbP h1 h2 h3 h4 h0 rfl (fun j hj => rfl) hgb
        ⟨hbP, hbN, hbD, hbS, hbDe, hbG,
          ⟨fun h => absurd ((hbMC.mp h).1) (lt_irrefl k),
           fun h => absurd h hhA⟩⟩
        hmt

/-- The full first pass establishes the invariant at the end of the
reset store. -/
theorem searchInv_fold (fs : FS) (sh : Bool) (ql : GoStr) (m' : Model)
    (hMC0 : ∀ x ∈ m'.items, x.MatchesContent = false) :
    SearchInv fs ql m' m'.items.length
      ((List.range m'.items.length).foldl (performSearchStep fs sh ql)
        ⟨m', [], []⟩) := by
  suffices h : ∀ k, k ≤ m'.items.length → SearchInv fs ql m' k
      ((List.range k).foldl (performSearchStep fs sh ql) ⟨m', [], []⟩) by
    exact h _ le_rfl
  intro k
  induction k with
  | zero =>
    intro _
    refine ⟨rfl, le_rfl, ?_, ?_, ?_, ?_⟩
    · intro j a hga
      refine ⟨a, hga, rfl, rfl, rfl, rfl, rfl, rfl, ?_⟩
      constructor
      · intro hmc
        rw [hMC0 a (List.get?_mem hga)] at hmc
        cases hmc
      · rintro ⟨hj, _⟩
        exact absurd hj (Nat.not_lt_zero j)
    · intro j b hj hb
      have hn : m'.items.get? j = none := List.get?_eq_none.mpr hj
      have hb' : m'.items.get? j = some b := hb
      rw [hn] at hb'
      cases hb'
    · intro p
      constructor
      · rintro ⟨x, hx, _⟩
        cases hx
      · rintro ⟨j, a, hj, _⟩
        exact absurd hj (Nat.not_lt_zero j)
    · intro j a hj _
      exact absurd hj (Nat.not_lt_zero j)
  | succ n ih =>
    intro hk
    rw [List.range_succ, List.foldl_append, List.foldl_cons, List.foldl_nil]
    exact searchInv_step fs sh ql m' n _ (Nat.lt_of_succ_le hk)
      (ih (Nat.le_of_succ_le hk))

/-- The loop body of the second pass of performSearch: append a directory
when some already-matched path lies strictly below it. -/
def pass2Step (acc : List FileItem × List GoStr) (it : FileItem) :
    List FileItem × List GoStr :=
  if acc.2.contains it.Path then acc
  else if it.IsDir && acc.2.any (fun p => strHasPref p (it.Path ++ [sep]))
  then (acc.1 ++ [it], acc.2 ++ [it.Path])
  else acc

/-- The second pass only adds directories and keeps everything already
collected. -/
theorem pass2_files (l : List FileItem) :
    ∀ acc : List FileItem × List GoStr,
      (∀ x ∈ (l.foldl pass2Step acc).1, x ∈ acc.1 ∨ x.IsDir = true) ∧
      (∀ x ∈ acc.1, x ∈ (l.foldl pass2Step acc).1) := by
  induction l with
  | nil => exact fun acc => ⟨fun x hx => Or.inl hx, fun x hx => hx⟩
  | cons it l ih =>
    intro acc
    rw [List.foldl_cons]
    constructor
    · intro x hx
      rcases (ih (pass2Step acc it)).1 x hx with h | h
      · unfold pass2Step at h
        by_cases h1 : acc.2.contains it.Path = true
        · rw [if_pos h1] at h
          exact Or.inl h
        · rw [if_neg h1] at h
          by_cases h2 : (it.IsDir && acc.2.any
              (fun p => strHasPref p (it.Path ++ [sep]))) = true
          · rw [if_pos h2] at h
            rcases List.mem_append.mp h with h | h
            · exact Or.inl h
            · have hx2 : x = it := by simpa using h
              subst hx2
              exact Or.inr (Bool.and_eq_true_iff.mp h2).1
          · rw [if_neg h2] at h
            exact Or.inl h
      · exact Or.inr h
    · intro x hx
      apply (ih (pass2Step acc it)).2
      unfold pass2Step
      by_cases h1 : acc.2.contains it.Path = true
      · rw [if_pos h1]
        exact hx
      · rw [if_neg h1]
        by_cases h2 : (it.IsDir && acc.2.any
            (fun p => strHasPref p (it.Path ++ [sep]))) = true
        · rw [if_pos h2]
          exact List.mem_append_left _ hx
        · rw [if_neg h2]
          exact hx

/-- The content probe never fires on a path whose stat size reaches the
ceiling. -/
theorem contentHit_big (fs : FS) (cm : Bool) (ql : GoStr) (p : GoStr)
    (hbig : ∀ sz, fs.statSize p = some sz → searchCeiling ≤ sz) :
    ∀ it : FileItem, it.Path = p → contentHit fs cm ql it = false := by
  intro it hp
  unfold contentHit
  rw [hp]
  by_cases hg : (!(strContains (strToLower it.Name) ql) && cm &&
      !it.IsDir) = true
  · rw [if_pos hg]
    cases hstat : fs.statSize p with
    | none => rfl
    | some sz =>
      dsimp only
      rw [if_neg (not_lt.mpr (hbig sz hstat))]
  · rw [if_neg hg]

/-- The ancestor expansion only consults the directory listings of the
file system. -/
theorem ensureParent_fs_congr (fs fs' : FS) (sh : Bool)
    (hlist : ∀ p, fs'.listDir p = fs.listDir p) :
    ∀ (fuel : Nat) (m : Model) (path : GoStr),
      ensureParentPathsExpanded fs' sh m path fuel =
      ensureParentPathsExpanded fs sh m path fuel := by
  intro fuel
  induction fuel with
  | zero =>
    intro m path
    rfl
  | succ n ih =>
    intro m path
    rw [ensureParent_succ, ensureParent_succ]
    by_cases hstop : dirOf path = m.cwd ∨ dirOf path = ['.']
    · rw [if_pos hstop, if_pos hstop]
    · rw [if_neg hstop, if_neg hstop]
      rw [ih m (dirOf path)]
      dsimp only
      rw [hlist (dirOf path)]

/-- One iteration of the first pass only consults the stat sizes, the
listings, and the bytes of files whose stat size is below the ceiling. -/
theorem performSearchStep_fs_congr (fs fs' : FS) (sh : Bool) (ql : GoStr)
    (hstat : ∀ p, fs'.statSize p = fs.statSize p)
    (hlist : ∀ p, fs'.listDir p = fs.listDir p)
    (hread : ∀ p sz, fs.statSize p = some sz → sz < searchCeiling →
      fs'.readFile p = fs.readFile p)
    (st : SearchState) (k : Nat) :
    performSearchStep fs' sh ql st k = performSearchStep fs sh ql st k := by
  unfold performSearchStep
  cases hg : st.m.items.get? k with
  | none => rfl
  | some b =>
    dsimp only
    rw [hstat b.Path]
    cases hstat2 : fs.statSize b.Path with
    | none =>
      rw [ensureParent_fs_congr fs fs' sh hlist]
    | some size =>
      dsimp only
      by_cases hsz : size < searchCeiling
      · rw [if_pos hsz, if_pos hsz, hread b.Path size hstat2 hsz,
          ensureParent_fs_congr fs fs' sh hlist]
      · rw [if_neg hsz, if_neg hsz,
          ensureParent_fs_congr fs fs' sh hlist]

/-- The whole search only consults the stat sizes, the listings, and the
bytes of files below the ceiling; in particular large files are never
read. -/
theorem performSearch_fs_congr (fs fs' : FS) (sh : Bool) (m : Model)
    (query : GoStr)
    (hstat : ∀ p, fs'.statSize p = fs.statSize p)
    (hlist : ∀ p, fs'.listDir p = fs.listDir p)
    (hread : ∀ p sz, fs.statSize p = some sz → sz < searchCeiling →
      fs'.readFile p = fs.readFile p) :
    performSearch fs' sh m query = performSearch fs sh m query := by
  unfold performSearch
  by_cases hq : query = []
  · rw [if_pos hq, if_pos hq]
  · rw [if_neg hq, if_neg hq]
    have hfold : ∀ (l : List Nat) (init : SearchState),
        l.foldl (performSearchStep fs' sh (strToLower query)) init =
        l.foldl (performSearchStep fs sh (strToLower query)) init := by
      intro l
      induction l with
      | nil =>
        intro init
        rfl
      | cons x xs ih =>
        intro init
        rw [List.foldl_cons, List.foldl_cons,
          performSearchStep_fs_congr fs fs' sh (strToLower query)
            hstat hlist hread init x, ih]
    dsimp only
    rw [hfold]

/-- C7 (amended: a small content hit is flagged only when the filename
did not already match).  In a content-mode search over a duplicate-free
store with at least one filename match, every file whose stat size
reaches the ceiling never ends content-flagged — any entry at its path
keeps matchesContent false — and is listed exactly when its name matches;
every file below the ceiling whose name does not match but whose bytes
contain the query case-insensitively ends content-flagged in the store
and is listed; and the whole search is unchanged under any change of the
file system that preserves stat sizes, listings and the bytes of
below-ceiling files, since larger files are never read. -/
theorem content_search_characterization (fs fs' : FS) (sh : Bool)
    (m : Model) (query : GoStr)
    (hq : query ≠ [])
    (hnd : (m.items.map FileItem.Path).Nodup)
    (hcm : m.contentSearchMode = true)
    (hsome : ∃ e ∈ m.items,
      strContains (strToLower e.Name) (strToLower query) = true)
    (hstat : ∀ p, fs'.statSize p = fs.statSize p)
    (hlist : ∀ p, fs'.listDir p = fs.listDir p)
    (hread : ∀ p sz, fs.statSize p = some sz → sz < searchCeiling →
      fs'.readFile p = fs.readFile p) :
    (∀ f ∈ m.items, f.IsDir = false →
      (∀ sz, fs.statSize f.Path = some sz → searchCeiling ≤ sz) →
      ((∀ x ∈ (performSearch fs sh m query).items, x.Path = f.Path →
          x.MatchesContent = false) ∧
       ((∃ x ∈ (performSearch fs sh m query).listItems,
           x.Path = f.Path ∧ x.IsDir = false) ↔
         strContains (strToLower f.Name) (strToLower query) = true))) ∧
    (∀ f ∈ m.items, f.IsDir = false →
      strContains (strToLower f.Name) (strToLower query) = false →
      ∀ sz content, fs.statSize f.Path = some sz → sz < searchCeiling →
        fs.readFile f.Path = some content →
        strContains (strToLower content) (strToLower query) = true →
        ((∃ x ∈ (performSearch fs sh m query).items,
            x.Path = f.Path ∧ x.MatchesContent = true) ∧
         (∃ x ∈ (performSearch fs sh m query).listItems,
            x.Path = f.Path ∧ x.IsDir = false))) ∧
    performSearch fs' sh m query = performSearch fs sh m query := by
  set ql := strToLower query with hqldef
  set m0 : Model := { m with
    items := m.items.map (fun it => { it with MatchesContent := false }) }
    with hm0def
  set st := (List.range m0.items.length).foldl (performSearchStep fs sh ql)
    ⟨m0, [], []⟩ with hstdef
  set p2 := st.m.items.foldl pass2Step (st.results, st.foundPaths)
    with hp2def
  set srt := p2.1.mergeSort (fun a b => !strLt b.Path a.Path) with hsrtdef
  have hform : performSearch fs sh m query =
      if 0 < srt.length then { st.m with listItems := srt } else st.m := by
    unfold performSearch
    rw [if_neg hq]
    rfl
  have hMC0 : ∀ x ∈ m0.items, x.MatchesContent = false := by
    intro x hx
    obtain ⟨y, _, hy⟩ := List.mem_map.mp hx
    rw [← hy]
  have hinv := searchInv_fold fs sh ql m0 hMC0
  rw [← hstdef] at hinv
  obtain ⟨i0, i1, i2, i3, i4, i5⟩ := hinv
  have hnd0 : (m0.items.map FileItem.Path).Nodup := by
    have hmm : m0.items.map FileItem.Path = m.items.map FileItem.Path := by
      rw [hm0def]
      dsimp only
      rw [List.map_map]
      rfl
    rw [hmm]
    exact hnd
  have hresetmem : ∀ f ∈ m.items,
      ({ f with MatchesContent := false } : FileItem) ∈ m0.items := by
    intro f hf
    rw [hm0def]
    dsimp only
    exact List.mem_map_of_mem _ hf
  have hne : st.results ≠ [] := by
    obtain ⟨e, he, hen⟩ := hsome
    obtain ⟨j, hj⟩ := List.get?_of_mem (hresetmem e he)
    have hjlt : j < m0.items.length := (List.get?_eq_some.mp hj).1
    refine i5 j _ hjlt hj ?_
    have hen' : strContains
        (strToLower ({ e with MatchesContent := false } : FileItem).Name)
        ql = true := hen
    rw [hen']
    rfl
  have hlen : 0 < srt.length := by
    obtain ⟨x, hx⟩ := List.exists_mem_of_ne_nil _ hne
    have hx2 : x ∈ p2.1 := by
      rw [hp2def]
      exact (pass2_files st.m.items (st.results, st.foundPaths)).2 x hx
    rw [hsrtdef, List.length_mergeSort]
    exact List.length_pos.mpr (List.ne_nil_of_mem hx2)
  have hfin : performSearch fs sh m query =
      { st.m with listItems := srt } := by
    rw [hform, if_pos hlen]
  have hmemiff : ∀ p : GoStr,
      (∃ x ∈ (performSearch fs sh m query).listItems,
        x.Path = p ∧ x.IsDir = false) ↔
      (∃ j a, j < m0.items.length ∧ m0.items.get? j = some a ∧
        a.Path = p ∧ a.IsDir = false ∧
        (strContains (strToLower a.Name) ql ||
          contentHit fs m0.contentSearchMode ql a) = true) := by
    intro p
    rw [hfin]
    dsimp only
    rw [← i4 p]
    constructor
    · rintro ⟨x, hx, hxp, hxd⟩
      rw [hsrtdef, List.mem_mergeSort, hp2def] at hx
      rcases (pass2_files st.m.items (st.results, st.foundPaths)).1 x hx
          with h | h
      · exact ⟨x, h, hxp, hxd⟩
      · rw [h] at hxd
        cases hxd
    · rintro ⟨x, hx, hxp, hxd⟩
      refine ⟨x, ?_, hxp, hxd⟩
      rw [hsrtdef, List.mem_mergeSort, hp2def]
      exact (pass2_files st.m.items (st.results, st.foundPaths)).2 x hx
  refine ⟨?_, ?_, performSearch_fs_congr fs fs' sh m query hstat hlist hread⟩
  · intro f hf hfd hbig
    constructor
    · intro x hx hxp
      rw [hfin] at hx
      have hx' : x ∈ st.m.items := hx
      obtain ⟨j, hj⟩ := List.get?_of_mem hx'
      by_cases hjlt : j < m0.items.length
      · obtain ⟨a, hga⟩ := get?_is_some hjlt
        obtain ⟨b, hgb, bP, bN, bD, bS, bDe, bG, bMC⟩ := i2 j a hga
        rw [hj] at hgb
        have hxb : x = b := Option.some.inj hgb
        have hap : a.Path = f.Path := by
          rw [← bP, ← hxb]
          exact hxp
        have hfalse : contentHit fs m0.contentSearchMode ql a = false :=
          contentHit_big fs _ ql f.Path hbig a hap
        have hbf : b.MatchesContent = false := by
          cases hbm : b.MatchesContent with
          | false => rfl
          | true =>
            obtain ⟨_, hhit⟩ := bMC.mp hbm
            rw [hfalse] at hhit
            cases hhit
        rw [hxb, hbf]
      · exact i3 j x (Nat.le_of_not_lt hjlt) hj
    · rw [hmemiff f.Path]
      constructor
      · rintro ⟨j, a, hjlt, hga, hap, had, hm⟩
        have haf : a = { f with MatchesContent := false } :=
          List.inj_on_of_nodup_map hnd0 (List.get?_mem hga)
            (hresetmem f hf) (by rw [hap])
        have hfalse : contentHit fs m0.contentSearchMode ql a = false :=
          contentHit_big fs _ ql f.Path hbig a hap
        rw [hfalse, Bool.or_false] at hm
        rw [haf] at hm
        exact hm
      · intro hname
        obtain ⟨j, hj⟩ := List.get?_of_mem (hresetmem f hf)
        refine ⟨j, _, (List.get?_eq_some.mp hj).1, hj, rfl, hfd, ?_⟩
        have hname' : strContains
            (strToLower ({ f with MatchesContent := false } :
              FileItem).Name) ql = true := hname
        rw [hname']
        rfl
  · intro f hf hfd hnm sz content hstatf hszf hreadf hcontf
    obtain ⟨j, hj⟩ := List.get?_of_mem (hresetmem f hf)
    have hjlt : j < m0.items.length := (List.get?_eq_some.mp hj).1
    have hcsm0 : m0.contentSearchMode = true := hcm
    have hhitf : contentHit fs m0.contentSearchMode ql
        ({ f with MatchesContent := false } : FileItem) = true := by
      have hnm' : strContains
          (strToLower ({ f with MatchesContent := false } :
            FileItem).Name) ql = false := hnm
      have hfd' : ({ f with MatchesContent := false } : FileItem).IsDir
          = false := hfd
      have hstatf' : fs.statSize ({ f with MatchesContent := false } :
          FileItem).Path = some sz := hstatf
      have hreadf' : fs.readFile ({ f with MatchesContent := false } :
          FileItem).Path = some content := hreadf
      unfold contentHit
      rw [hnm', hcsm0, hfd', hstatf']
      dsimp only
      rw [if_pos hszf, hreadf']
      dsimp only
      rw [hcontf]
      rfl
    obtain ⟨b, hgb, bP, bN, bD, bS, bDe, bG, bMC⟩ := i2 j _ hj
    have hbmc : b.MatchesContent = true := bMC.mpr ⟨hjlt, hhitf⟩
    constructor
    · rw [hfin]
      exact ⟨b, List.get?_mem hgb, bP, hbmc⟩
    · rw [hmemiff f.Path]
      refine ⟨j, _, hjlt, hj, rfl, hfd, ?_⟩
      rw [hhitf]
      simp

/-- The model with every content flag cleared, as the non-empty branch of
performSearch starts. -/
def resetModel (m : Model) : Model := { m with
  items := m.items.map (fun it => { it with MatchesContent := false }) }

/-- The store after performSearch is exactly the store after the first
pass, whichever way the final publication branch goes. -/
theorem performSearch_items (fs : FS) (sh : Bool) (m : Model)
    (query : GoStr) (hq : query ≠ []) :
    (performSearch fs sh m query).items =
      ((List.range (resetModel m).items.length).foldl
        (performSearchStep fs sh (strToLower query))
        ⟨resetModel m, [], []⟩).m.items := by
  unfold performSearch
  rw [if_neg hq]
  dsimp only
  split
  · rfl
  · rfl

/-- A model in content-search mode over the given store. -/
def cmModel (items : List FileItem) (cwd : GoStr) : Model :=
  { items := items, cwd := cwd, gitignoreRegexp := none,
    contentSearchMode := true, listItems := [], isLoading := false,
    errors := [], showErrors := false, isInSearchResults := false }

/-- Store for the C7 counterexample: one small file whose name and bytes
both contain the query. -/
def cexC7Model : Model :=
  cmModel [mkItem "/w/a.txt".toList "a.txt".toList false false 0
    false false false] "/w".toList

/-- File system for the C7 counterexample: the file is well below the
ceiling and its bytes contain the query. -/
def cexC7FS : FS :=
  { statSize := fun _ => some 10,
    readFile := fun _ => some "xax".toList,
    listDir := fun _ => none }

/-- C7, counterexample to the claim as stated: in content mode, a file
below the size ceiling whose bytes contain the query is not flagged
matchesContent when its filename already matches, because the content
probe is skipped for filename matches. -/
theorem content_search_counterexample :
    (cexC7Model.contentSearchMode = true ∧
     cexC7FS.statSize "/w/a.txt".toList = some 10 ∧
     (10 : Int) < searchCeiling ∧
     cexC7FS.readFile "/w/a.txt".toList = some "xax".toList ∧
     strContains (strToLower "xax".toList) (strToLower "a".toList)
       = true) ∧
    (∀ x ∈ (performSearch cexC7FS false cexC7Model "a".toList).items,
      x.MatchesContent = false) := by
  constructor
  · exact ⟨rfl, rfl, by decide, rfl, by decide⟩
  · intro x hx
    rw [performSearch_items cexC7FS false cexC7Model "a".toList
      (by decide)] at hx
    have hL : ((List.range (resetModel cexC7Model).items.length).foldl
        (performSearchStep cexC7FS false (strToLower "a".toList))
        ⟨resetModel cexC7Model, [], []⟩).m.items =
        [mkItem "/w/a.txt".toList "a.txt".toList false false 0
          false false false] := by decide
    rw [hL] at hx
    have hx' : x = mkItem "/w/a.txt".toList "a.txt".toList false false 0
        false false false := by simpa using hx
    subst hx'
    decide

/-- Store for the C7 witness: a name-matching small file, a too-large
file with a content hit, and a small file with a content hit only. -/
def witC7Model : Model :=
  cmModel
    [mkItem "/w/todo.txt".toList "todo.txt".toList false false 0
       false false false,
     mkItem "/w/big.bin".toList "big.bin".toList false false 0
       false false false,
     mkItem "/w/notes.md".toList "notes.md".toList false false 0
       false false false]
    "/w".toList

/-- File system for the C7 witness: big.bin is above the ceiling, every
other path is small, and notes.md holds a content hit. -/
def witC7FS : FS :=
  { statSize := fun p =>
      if p = "/w/big.bin".toList then some (2 * 1024 * 1024)
      else some 20,
    readFile := fun p =>
      if p = "/w/notes.md".toList then some "my todo list".toList
      else some "x".toList,
    listDir := fun _ => none }

/-- C7, witness: the amended content-search theorem applied to the
concrete store and file system, every hypothesis discharged by
evaluation. -/
theorem content_search_witness :
    (("todo".toList : GoStr) ≠ [] ∧
     (witC7Model.items.map FileItem.Path).Nodup ∧
     witC7Model.contentSearchMode = true ∧
     (∃ e ∈ witC7Model.items, strContains (strToLower e.Name)
        (strToLower "todo".toList) = true)) ∧
    ((∀ f ∈ witC7Model.items, f.IsDir = false →
      (∀ sz, witC7FS.statSize f.Path = some sz → searchCeiling ≤ sz) →
      ((∀ x ∈ (performSearch witC7FS false witC7Model
          "todo".toList).items, x.Path = f.Path →
          x.MatchesContent = false) ∧
       ((∃ x ∈ (performSearch witC7FS false witC7Model
           "todo".toList).listItems, x.Path = f.Path ∧ x.IsDir = false) ↔
         strContains (strToLower f.Name) (strToLower "todo".toList)
           = true))) ∧
    (∀ f ∈ witC7Model.items, f.IsDir = false →
      strContains (strToLower f.Name) (strToLower "todo".toList)
        = false →
      ∀ sz content, witC7FS.statSize f.Path = some sz →
        sz < searchCeiling →
        witC7FS.readFile f.Path = some content →
        strContains (strToLower content) (strToLower "todo".toList)
          = true →
        ((∃ x ∈ (performSearch witC7FS false witC7Model
            "todo".toList).items,
            x.Path = f.Path ∧ x.MatchesContent = true) ∧
         (∃ x ∈ (performSearch witC7FS false witC7Model
            "todo".toList).listItems,
            x.Path = f.Path ∧ x.IsDir = false))) ∧
    performSearch witC7FS false witC7Model "todo".toList =
      performSearch witC7FS false witC7Model "todo".toList) :=
  ⟨⟨by decide, by decide, rfl, by decide⟩,
   content_search_characterization witC7FS witC7FS false witC7Model
     "todo".toList (by decide) (by decide) rfl (by decide)
     (fun p => rfl) (fun p => rfl) (fun p sz h1 h2 => rfl)⟩

end LLMDog
